import Mathlib

/-!
# pyramid/dynamic_array: a byte-level model of the type-erased vector

The container of `src/dynamic_array.c` is embedded at the level of bytes:

* a `size_t` is a natural number and `malloc`/`realloc` always succeed: every
  storage request `capacity * elem_size` is representable and granted. A live
  array owns `capacity * elem_size` bytes of real memory, so the offsets
  `i * elem_size` computed on it do not wrap;
* `da_reserve` takes a count chosen by the caller and returns whatever the
  byte count was, so it is also given with the product `capacity * elem_size`
  computed in a 64-bit `size_t` (`da_realloc_size_t`, `da_reserve_size_t`);
* a pointer to a `dynamic_array` is an `Option da_ctx` (`none` is `NULL`);
* the storage `char *data` is an `Option (List mem_byte)`: `none` is `NULL`,
  `some buf` is a block of `buf.length` bytes;
* a byte that was never written since its allocation is `none`
  (indeterminate), a written byte is `some b`;
* a `const void *elem` argument is an `Option (List mem_byte)`: `none` is
  `NULL`, `some v` is the content of the block the pointer refers to, of which
  `elem_size` bytes are read. The caller's block is separate from the storage
  of the array;
* a `void *o_elem` out-parameter is the content of the caller's block before
  the call, and every function that has one also returns its content after
  the call;
* a pointer returned by `da_get`, `da_front`, `da_back` is the block of
  `elem_size` bytes it refers to.
-/

namespace Pyramid

/-- One byte of memory: `none` while indeterminate, `some b` once written. -/
abbrev mem_byte := Option Nat

/-- The `n` bytes found at offset `off` of a block. -/
def mem_read (buf : List mem_byte) (off n : Nat) : List mem_byte :=
  (buf.drop off).take n

/-- The block `buf` after the bytes `src` were stored at offset `off`. The
block keeps its length: bytes falling outside of it are not stored. -/
def mem_write (buf : List mem_byte) (off : Nat) (src : List mem_byte) : List mem_byte :=
  (buf.take off ++ src ++ buf.drop (off + src.length)).take buf.length

/-- The libc call `realloc(p, n)`: a block of `n` bytes that starts with the
old content, the rest indeterminate. A request for zero bytes releases the
block and gives `NULL`. -/
def realloc (p : Option (List mem_byte)) (n : Nat) : Option (List mem_byte) :=
  if n = 0 then none
  else some ((p.getD []).take n ++ List.replicate (n - (p.getD []).length) none)

/-- The calls `memcpy(base + off, src, n)` and `memmove(base + off, src, n)`
from a block `src` that lies outside of the destination block; nothing is
stored through a `NULL` base. -/
def memcpy (base : Option (List mem_byte)) (off : Nat) (src : List mem_byte) (n : Nat) :
    Option (List mem_byte) :=
  base.map (fun buf => mem_write buf off (src.take n))

/-- The call `memmove(base + dst, base + src, n)` inside one block (the two
ranges may overlap). -/
def memmove (base : Option (List mem_byte)) (dst src n : Nat) : Option (List mem_byte) :=
  base.map (fun buf => mem_write buf dst (mem_read buf src n))

/-- The statement `if (o_elem) memmove(o_elem, p, n)`: the copy into the
caller's out block, where `p` is a pointer into the storage given by the block
it refers to. -/
def copy_out (o_elem : Option (List mem_byte)) (p : Option (List mem_byte)) (n : Nat) :
    Option (List mem_byte) :=
  match o_elem, p with
  | some out, some s => some (mem_write out 0 (s.take n))
  | o, _ => o

/-- The `struct da_ctx` of the source. -/
structure da_ctx where
  size : Nat
  capacity : Nat
  elem_size : Nat
  data : Option (List mem_byte)
deriving DecidableEq, Repr

/-- The macro `DA_PTR_FROM_IDX(a, i)`, as a byte offset from `a->data`. -/
def DA_PTR_FROM_IDX (a : da_ctx) (i : Nat) : Nat :=
  i * a.elem_size

/-- The element a pointer `a->data + off` refers to: `elem_size` bytes of the
storage, or nothing when there is no storage. -/
def deref (a : da_ctx) (off : Nat) : Option (List mem_byte) :=
  a.data.map (fun buf => mem_read buf off a.elem_size)

/-- The static helper `da_realloc`: the new capacity is stored first, then the
storage is reallocated to `capacity * elem_size` bytes. The product is the one
of the natural numbers; `da_realloc_size_t` is the helper with the product of
the source, which wraps in `size_t`. -/
def da_realloc (da : da_ctx) (new_capacity : Nat) : da_ctx :=
  let da := { da with capacity := new_capacity }
  { da with data := realloc da.data (da.capacity * da.elem_size) }

/-- The constructor `da_create`; the `malloc` of the structure succeeds. -/
def da_create (elem_size : Nat) : Option da_ctx :=
  if elem_size = 0 then none
  else some { size := 0, capacity := 0, elem_size := elem_size, data := none }

def da_is_empty (da : Option da_ctx) : Bool :=
  match da with
  | some d => decide (d.size = 0)
  | none => true

def da_size (da : Option da_ctx) : Nat :=
  match da with
  | some d => d.size
  | none => 0

def da_capacity (da : Option da_ctx) : Nat :=
  match da with
  | some d => d.capacity
  | none => 0

def da_data (da : Option da_ctx) : Option (List mem_byte) :=
  match da with
  | some d => d.data
  | none => none

/-- The loop `for (i = lo; i < hi; i++) memcpy(DA_PTR_FROM_IDX(da, i), v, elem_size)`
of `da_create_n` and `da_resize`. -/
def fill_loop (da : da_ctx) (lo hi : Nat) (v : List mem_byte) : da_ctx :=
  (List.range' lo (hi - lo)).foldl
    (fun d i => { d with data := memcpy d.data (DA_PTR_FROM_IDX d i) v d.elem_size }) da

def da_create_n (elem_size n : Nat) (initial_value : Option (List mem_byte)) : Option da_ctx :=
  if elem_size = 0 then none
  else
    match da_create elem_size with
    | none => none
    | some da =>
      if n = 0 then some da
      else
        let da := da_realloc da n
        let da := { da with size := n }
        match initial_value with
        | some v => some (fill_loop da 0 n v)
        | none => some da

def da_reserve (da : Option da_ctx) (n : Nat) : Option da_ctx :=
  match da with
  | none => none
  | some d => if n > d.capacity then some (da_realloc d n) else some d

/-- The constructor `da_dup`. The source is `const`: it is read and the new
array is the only result. -/
def da_dup (other : Option da_ctx) : Option da_ctx :=
  match other with
  | none => none
  | some o =>
    match da_create o.elem_size with
    | none => none
    | some da =>
      match da_reserve (some da) o.capacity with
      | none => none
      | some da =>
        let da := { da with size := o.size }
        some { da with data := memcpy da.data 0 (o.data.getD []) (o.size * o.elem_size) }

/-- The accessor `da_get`: `NULL` under the guard of the source, else the
element that `DA_PTR_FROM_IDX(da, i)` refers to. -/
def da_get (da : Option da_ctx) (i : Nat) : Option (List mem_byte) :=
  match da with
  | none => none
  | some d =>
    if da_is_empty (some d) = true ∨ i ≥ d.size then none
    else deref d (DA_PTR_FROM_IDX d i)

def da_set (da : Option da_ctx) (i : Nat) (elem : Option (List mem_byte)) : Option da_ctx :=
  match da with
  | none => none
  | some d =>
    match elem with
    | none => some d
    | some v =>
      if da_is_empty (some d) = true ∨ i ≥ d.size then some d
      else some { d with data := memcpy d.data (DA_PTR_FROM_IDX d i) v d.elem_size }

def da_insert (da : Option da_ctx) (i : Nat) (elem : Option (List mem_byte)) : Option da_ctx :=
  match da with
  | none => none
  | some d =>
    match elem with
    | none => some d
    | some v =>
      if i > d.size then some d
      else
        let d := if d.size = d.capacity
          then da_realloc d (if d.capacity ≠ 0 then d.capacity * 2 else 1) else d
        let dest := DA_PTR_FROM_IDX d i
        let d := { d with
          data := memmove d.data (dest + d.elem_size) dest ((d.size - i) * d.elem_size) }
        let d := { d with data := memcpy d.data dest v d.elem_size }
        some { d with size := d.size + 1 }

/-- The mutator `da_erase`: the array and the caller's out block after the call. -/
def da_erase (da : Option da_ctx) (i : Nat) (o_elem : Option (List mem_byte)) :
    Option da_ctx × Option (List mem_byte) :=
  match da with
  | none => (none, o_elem)
  | some d =>
    if da_is_empty (some d) = true ∨ i ≥ d.size then (some d, o_elem)
    else
      let o_elem := copy_out o_elem (da_get (some d) i) d.elem_size
      let dest := DA_PTR_FROM_IDX d i
      let d := { d with
        data := memmove d.data dest (dest + d.elem_size) ((d.size - i - 1) * d.elem_size) }
      (some { d with size := d.size - 1 }, o_elem)

def da_push (da : Option da_ctx) (elem : Option (List mem_byte)) : Option da_ctx :=
  match da with
  | none => none
  | some d =>
    match elem with
    | none => some d
    | some v =>
      let d := if d.size = d.capacity
        then da_realloc d (if d.capacity ≠ 0 then d.capacity * 2 else 1) else d
      let dest := DA_PTR_FROM_IDX d d.size
      let d := { d with data := memcpy d.data dest v d.elem_size }
      some { d with size := d.size + 1 }

def da_front (da : Option da_ctx) : Option (List mem_byte) :=
  if da_is_empty da = true then none else da_get da 0

def da_back (da : Option da_ctx) : Option (List mem_byte) :=
  match da with
  | none => none
  | some d => if da_is_empty (some d) = true then none else da_get (some d) (d.size - 1)

/-- The mutator `da_pop`: the array and the caller's out block after the call.
The pointer `popped` is taken before the size is decremented and read after. -/
def da_pop (da : Option da_ctx) (o_elem : Option (List mem_byte)) :
    Option da_ctx × Option (List mem_byte) :=
  match da with
  | none => (none, o_elem)
  | some d =>
    if da_is_empty (some d) = true then (some d, o_elem)
    else
      let popped := da_back (some d)
      let d := { d with size := d.size - 1 }
      (some d, copy_out o_elem popped d.elem_size)

def da_clear (da : Option da_ctx) : Option da_ctx :=
  match da with
  | none => none
  | some d => some { d with size := 0 }

/-- The mutator `da_resize`. The source passes `initial_value` to `memcpy`
unchecked; with a `NULL` one the new slots are left as they are here. -/
def da_resize (da : Option da_ctx) (n : Nat) (initial_value : Option (List mem_byte)) :
    Option da_ctx :=
  match da with
  | none => none
  | some d =>
    let d := if n > d.capacity then da_realloc d n else d
    let d := if n > d.size then
        match initial_value with
        | some v => fill_loop d d.size n v
        | none => d
      else d
    some { d with size := n }

/-- The representation invariant of a live array: a positive element size,
`size <= capacity`, and storage of exactly `capacity * elem_size` bytes, which
is `NULL` exactly when the capacity is zero. -/
def valid (d : da_ctx) : Prop :=
  0 < d.elem_size ∧ d.size ≤ d.capacity ∧
    match d.data with
    | none => d.capacity = 0
    | some buf => 0 < d.capacity ∧ buf.length = d.capacity * d.elem_size

instance (d : da_ctx) : Decidable (valid d) := by
  unfold valid
  cases d.data <;> exact inferInstance

/-- The array as `da_insert` and `da_push` see it after their growth step
`if (da->size == da->capacity) da_realloc(da, da->capacity ? da->capacity * 2 : 1)`. -/
def grown (d : da_ctx) : da_ctx :=
  if d.size = d.capacity then da_realloc d (if d.capacity ≠ 0 then d.capacity * 2 else 1) else d

/-- The storage after the two `memmove` calls of `da_insert`. -/
def insert_bytes (buf : List mem_byte) (es s i : Nat) (v : List mem_byte) : List mem_byte :=
  mem_write (mem_write buf (i * es + es) (mem_read buf (i * es) ((s - i) * es))) (i * es)
    (v.take es)

/-- The storage after the `memmove` call of `da_erase`. -/
def erase_bytes (buf : List mem_byte) (es s i : Nat) : List mem_byte :=
  mem_write buf (i * es) (mem_read buf (i * es + es) ((s - i - 1) * es))

/-- The calls `da_push(da, v)` for `v` running through `vs`, in order. -/
def push_all (da : Option da_ctx) (vs : List (List mem_byte)) : Option da_ctx :=
  vs.foldl (fun a v => da_push a (some v)) da

/-- One call `da_pop(da, o_elem)` on the triple of the array, the caller's out
block and the log of what the out block held after each earlier call. -/
def pop_step (st : Option da_ctx × Option (List mem_byte) × List (Option (List mem_byte))) :
    Option da_ctx × Option (List mem_byte) × List (Option (List mem_byte)) :=
  ((da_pop st.1 st.2.1).1, (da_pop st.1 st.2.1).2, st.2.2 ++ [(da_pop st.1 st.2.1).2])

/-- The call `da_pop(da, o_elem)` made `n` times in a row with one out block. -/
def pop_each (n : Nat)
    (st : Option da_ctx × Option (List mem_byte) × List (Option (List mem_byte))) :
    Option da_ctx × Option (List mem_byte) × List (Option (List mem_byte)) :=
  pop_step^[n] st

/-- A call of one of the mutators on an array, with its arguments. -/
inductive da_call where
  | set (i : Nat) (elem : Option (List mem_byte))
  | insert (i : Nat) (elem : Option (List mem_byte))
  | erase (i : Nat) (o_elem : Option (List mem_byte))
  | push (elem : Option (List mem_byte))
  | pop (o_elem : Option (List mem_byte))
  | clear
  | resize (n : Nat) (initial_value : Option (List mem_byte))
  | reserve (n : Nat)

/-- The array after the call `c` was made on it. -/
def da_call.run (c : da_call) (da : Option da_ctx) : Option da_ctx :=
  match c with
  | .set i elem => da_set da i elem
  | .insert i elem => da_insert da i elem
  | .erase i o_elem => (da_erase da i o_elem).1
  | .push elem => da_push da elem
  | .pop o_elem => (da_pop da o_elem).1
  | .clear => da_clear da
  | .resize n initial_value => da_resize da n initial_value
  | .reserve n => da_reserve da n

/-- The storage after the stores of `fill_loop` at the slots listed in `l`. -/
def fill_bytes (buf : List mem_byte) (es : Nat) (l : List Nat) (v : List mem_byte) :
    List mem_byte :=
  l.foldl (fun b i => mem_write b (i * es) (v.take es)) buf

/-- The eight bytes of a `size_t` value, least significant byte first. -/
def size_t_bytes (n : Nat) : List mem_byte :=
  (List.range 8).map (fun k => some (n / 256 ^ k % 256))

/-- The element sequence of an array: what `da_get` gives at `0, ..., size - 1`. -/
def contents (a : Option da_ctx) : List (Option (List mem_byte)) :=
  (List.range (da_size a)).map (da_get a)

/-- One recorded call of `da_realloc`: its `new_capacity` argument, and the
number of live elements (`size`) the array held at the call, which the
reallocation carries over into the new storage. -/
structure realloc_call where
  new_capacity : Nat
  carried : Nat
deriving DecidableEq, Repr

/-- The helper `da_realloc` with its call appended to the log. -/
def da_realloc_traced (da : da_ctx) (new_capacity : Nat) (log : List realloc_call) :
    da_ctx × List realloc_call :=
  (da_realloc da new_capacity, log ++ [{ new_capacity := new_capacity, carried := da.size }])

/-- The mutator `da_push`, with the log of its `da_realloc` calls. -/
def da_push_traced (da : Option da_ctx) (elem : Option (List mem_byte))
    (log : List realloc_call) : Option da_ctx × List realloc_call :=
  match da with
  | none => (none, log)
  | some d =>
    match elem with
    | none => (some d, log)
    | some v =>
      let r := if d.size = d.capacity
        then da_realloc_traced d (if d.capacity ≠ 0 then d.capacity * 2 else 1) log
        else (d, log)
      let d := r.1
      let dest := DA_PTR_FROM_IDX d d.size
      let d := { d with data := memcpy d.data dest v d.elem_size }
      (some { d with size := d.size + 1 }, r.2)

/-- The calls `da_push(da, v)` for `v` running through `vs`, with the log of
the `da_realloc` calls made. -/
def push_all_traced (da : Option da_ctx) (vs : List (List mem_byte)) (log : List realloc_call) :
    Option da_ctx × List realloc_call :=
  vs.foldl (fun st v => da_push_traced st.1 (some v) st.2) (da, log)

/-- The number of live elements carried over by the recorded reallocations. -/
def carried_total (log : List realloc_call) : Nat :=
  (log.map realloc_call.carried).sum

/-- The state of the doubling policy after `n` pushes on a fresh array: no
storage and no work at `n = 0`; else the capacity `cap` is a power of two with
`n <= cap < 2 * n`, and the `total` of elements carried so far is `cap - 1`. -/
def doubling_inv (n cap total : Nat) : Prop :=
  (n = 0 ∧ cap = 0 ∧ total = 0) ∨
    (1 ≤ n ∧ ∃ k, cap = 2 ^ k ∧ n ≤ 2 ^ k ∧ 2 ^ k < 2 * n ∧ total + 1 = 2 ^ k)

theorem getElem?_mem_read (buf : List mem_byte) (off n k : Nat) :
    (mem_read buf off n)[k]? = if k < n then buf[off + k]? else none := by
  simp [mem_read, List.getElem?_take, List.getElem?_drop]

theorem length_mem_read (buf : List mem_byte) (off n : Nat) (h : off + n ≤ buf.length) :
    (mem_read buf off n).length = n := by
  simp [mem_read]; omega

theorem length_mem_write (buf : List mem_byte) (off : Nat) (src : List mem_byte) :
    (mem_write buf off src).length = buf.length := by
  simp [mem_write]; omega

theorem getElem?_mem_write (buf : List mem_byte) (off : Nat) (src : List mem_byte) (k : Nat) :
    (mem_write buf off src)[k]? =
      if k < buf.length then
        (if off ≤ k ∧ k < off + src.length then src[k - off]? else buf[k]?)
      else none := by
  unfold mem_write
  rw [List.getElem?_take]
  by_cases hk : k < buf.length
  · rw [if_pos hk, if_pos hk, List.append_assoc, List.getElem?_append, List.length_take]
    by_cases h1 : k < off
    · rw [if_pos (by omega), if_neg (by omega), List.getElem?_take, if_pos h1]
    · rw [if_neg (by omega), List.getElem?_append]
      have hm : k - min off buf.length = k - off := by omega
      rw [hm]
      by_cases h2 : k < off + src.length
      · rw [if_pos (by omega), if_pos (by omega)]
      · rw [if_neg (by omega), if_neg (by omega), List.getElem?_drop]
        congr 1; omega
  · rw [if_neg hk, if_neg hk]

theorem slot_succ_le {j i : Nat} (es : Nat) (h : j < i) : j * es + es ≤ i * es := by
  have := Nat.mul_le_mul_right es (Nat.succ_le_of_lt h)
  rwa [Nat.succ_mul] at this

/-- Two blocks that agree byte by byte on a slot hold the same element there. -/
theorem mem_read_congr (b1 b2 : List mem_byte) (o1 o2 n : Nat)
    (h : ∀ k, k < n → b1[o1 + k]? = b2[o2 + k]?) :
    mem_read b1 o1 n = mem_read b2 o2 n := by
  apply List.ext_getElem?
  intro k
  rw [getElem?_mem_read, getElem?_mem_read]
  by_cases hk : k < n
  · rw [if_pos hk, if_pos hk, h k hk]
  · rw [if_neg hk, if_neg hk]

theorem mem_write_read_self (buf : List mem_byte) (off : Nat) (v : List mem_byte)
    (h : off + v.length ≤ buf.length) :
    mem_read (mem_write buf off v) off v.length = v := by
  apply List.ext_getElem?
  intro k
  rw [getElem?_mem_read, getElem?_mem_write]
  by_cases hk : k < v.length
  · rw [if_pos hk, if_pos (by omega), if_pos (by omega)]
    congr 1; omega
  · rw [if_neg hk, List.getElem?_eq_none (by omega)]

/-! ## The shift of `da_insert` -/

theorem length_insert_bytes (buf : List mem_byte) (es s i : Nat) (v : List mem_byte) :
    (insert_bytes buf es s i v).length = buf.length := by
  simp [insert_bytes, length_mem_write]

theorem insert_bytes_at (buf : List mem_byte) (es s i : Nat) (v : List mem_byte)
    (hi : i ≤ s) (hlen : v.length = es) (hroom : (s + 1) * es ≤ buf.length) :
    mem_read (insert_bytes buf es s i v) (i * es) es = v := by
  have h1 : i * es ≤ s * es := Nat.mul_le_mul_right es hi
  have h2 : (s + 1) * es = s * es + es := Nat.succ_mul s es
  have h3 : v.take es = v := by rw [← hlen]; exact List.take_length v
  unfold insert_bytes
  rw [h3]
  have := mem_write_read_self
    (mem_write buf (i * es + es) (mem_read buf (i * es) ((s - i) * es))) (i * es) v
    (by rw [length_mem_write]; omega)
  rwa [hlen] at this

theorem insert_bytes_below (buf : List mem_byte) (es s i j : Nat) (v : List mem_byte)
    (hi : i ≤ s) (hj : j < i) (hlen : v.length = es) (hroom : (s + 1) * es ≤ buf.length) :
    mem_read (insert_bytes buf es s i v) (j * es) es = mem_read buf (j * es) es := by
  have h1 : i * es ≤ s * es := Nat.mul_le_mul_right es hi
  have h2 : (s + 1) * es = s * es + es := Nat.succ_mul s es
  have h3 : v.take es = v := by rw [← hlen]; exact List.take_length v
  have h4 := slot_succ_le es hj
  apply mem_read_congr
  intro k hk
  unfold insert_bytes
  rw [h3]
  simp only [getElem?_mem_read, getElem?_mem_write, length_mem_write]
  rw [if_pos (by omega), if_neg (by omega), if_pos (by omega), if_neg (by omega)]

theorem insert_bytes_above (buf : List mem_byte) (es s i j : Nat) (v : List mem_byte)
    (hi : i ≤ j) (hj : j < s) (hlen : v.length = es) (hroom : (s + 1) * es ≤ buf.length) :
    mem_read (insert_bytes buf es s i v) ((j + 1) * es) es = mem_read buf (j * es) es := by
  have h1 : i * es ≤ j * es := Nat.mul_le_mul_right es hi
  have h2 : (s + 1) * es = s * es + es := Nat.succ_mul s es
  have h2' : (j + 1) * es = j * es + es := Nat.succ_mul j es
  have h3 : v.take es = v := by rw [← hlen]; exact List.take_length v
  have h4 := slot_succ_le es hj
  have h5 : (s - i) * es = s * es - i * es := Nat.sub_mul s i es
  have h6 : (mem_read buf (i * es) ((s - i) * es)).length = (s - i) * es :=
    length_mem_read _ _ _ (by omega)
  apply mem_read_congr
  intro k hk
  unfold insert_bytes
  rw [h3]
  simp only [getElem?_mem_read, getElem?_mem_write, length_mem_write]
  rw [if_pos (by omega), if_neg (by omega), if_pos (by omega), if_pos (by omega),
    if_pos (by omega)]
  congr 1; omega

/-! ## Growth -/

theorem realloc_grow (p : Option (List mem_byte)) (n : Nat) (hn : 0 < n)
    (hp : (p.getD []).length ≤ n) :
    ∃ buf, realloc p n = some buf ∧ buf.length = n ∧
      ∀ k, k < (p.getD []).length → buf[k]? = (p.getD [])[k]? := by
  refine ⟨(p.getD []).take n ++ List.replicate (n - (p.getD []).length) none, ?_, ?_, ?_⟩
  · unfold realloc
    rw [if_neg (by omega)]
  · rw [List.length_append, List.length_take, List.length_replicate]
    omega
  · intro k hk
    rw [List.getElem?_append_left (by rw [List.length_take]; omega), List.getElem?_take,
      if_pos (by omega)]

theorem grown_capacity (d : da_ctx) :
    (grown d).capacity =
      if d.size = d.capacity then (if d.capacity ≠ 0 then d.capacity * 2 else 1)
      else d.capacity := by
  unfold grown
  by_cases h : d.size = d.capacity
  · rw [if_pos h, if_pos h]; rfl
  · rw [if_neg h, if_neg h]

theorem grown_size (d : da_ctx) : (grown d).size = d.size := by
  unfold grown
  by_cases h : d.size = d.capacity
  · rw [if_pos h]; rfl
  · rw [if_neg h]

theorem grown_elem_size (d : da_ctx) : (grown d).elem_size = d.elem_size := by
  unfold grown
  by_cases h : d.size = d.capacity
  · rw [if_pos h]; rfl
  · rw [if_neg h]

theorem valid_data_length (d : da_ctx) (hd : valid d) :
    (d.data.getD []).length = d.capacity * d.elem_size := by
  obtain ⟨_, _, h⟩ := hd
  cases hdata : d.data with
  | none => rw [hdata] at h; simp at h; simp [h]
  | some buf => rw [hdata] at h; simp at h; simp [h.2]

theorem grown_data (d : da_ctx) (hd : valid d) :
    ∃ buf, (grown d).data = some buf ∧ buf.length = (grown d).capacity * d.elem_size ∧
      d.size + 1 ≤ (grown d).capacity ∧
      ∀ k, k < d.size * d.elem_size → buf[k]? = (d.data.getD [])[k]? := by
  have hlen := valid_data_length d hd
  obtain ⟨hes, hsz, hdata⟩ := hd
  have hcap := grown_capacity d
  by_cases h : d.size = d.capacity
  · rw [if_pos h] at hcap
    have hc : d.capacity + 1 ≤ (grown d).capacity := by
      rw [hcap]; split_ifs <;> omega
    have hle : d.capacity * d.elem_size ≤ (grown d).capacity * d.elem_size :=
      Nat.mul_le_mul_right _ (by omega)
    have hpos : 0 < (grown d).capacity * d.elem_size := Nat.mul_pos (by omega) hes
    obtain ⟨buf, hb, hbl, hbk⟩ :=
      realloc_grow d.data ((grown d).capacity * d.elem_size) hpos (by omega)
    refine ⟨buf, ?_, hbl, by omega, ?_⟩
    · rw [← hb, hcap]
      unfold grown
      rw [if_pos h]; rfl
    · intro k hk
      exact hbk k (by rw [hlen, ← h]; exact hk)
  · rw [if_neg h] at hcap
    have hg : grown d = d := by unfold grown; rw [if_neg h]
    rw [hg]
    cases hd' : d.data with
    | none => rw [hd'] at hdata; simp at hdata; omega
    | some buf =>
      rw [hd'] at hdata
      exact ⟨buf, rfl, hdata.2, by omega, fun k _ => rfl⟩

/-! ## Reading elements -/

theorem da_get_of_lt (d : da_ctx) (buf : List mem_byte) (j : Nat) (hdata : d.data = some buf)
    (hj : j < d.size) :
    da_get (some d) j = some (mem_read buf (j * d.elem_size) d.elem_size) := by
  unfold da_get
  have h : ¬ (da_is_empty (some d) = true ∨ j ≥ d.size) := by
    simp [da_is_empty]; omega
  simp only [h, if_false, deref, DA_PTR_FROM_IDX, hdata, Option.map_some']

/-- A valid array with a live element has storage, and every live slot lies inside it. -/
theorem valid_storage (d : da_ctx) (hd : valid d) (hs : 0 < d.size) :
    ∃ buf, d.data = some buf ∧ buf.length = d.capacity * d.elem_size := by
  obtain ⟨_, hsz, h⟩ := hd
  cases hdata : d.data with
  | none => rw [hdata] at h; simp at h; omega
  | some buf => rw [hdata] at h; exact ⟨buf, rfl, h.2⟩

/-! ## `da_insert` -/

theorem da_insert_eq (d : da_ctx) (i : Nat) (v : List mem_byte) (hi : i ≤ d.size)
    (buf : List mem_byte) (hbuf : (grown d).data = some buf) :
    da_insert (some d) i (some v) =
      some { size := d.size + 1, capacity := (grown d).capacity, elem_size := d.elem_size,
             data := some (insert_bytes buf d.elem_size d.size i v) } := by
  have h1 := grown_size d
  have h2 := grown_elem_size d
  unfold da_insert
  simp only [gt_iff_lt, if_neg (Nat.not_lt.mpr hi)]
  change some
    ({ size := (grown d).size + 1, capacity := (grown d).capacity,
       elem_size := (grown d).elem_size,
       data := memcpy (memmove (grown d).data (DA_PTR_FROM_IDX (grown d) i + (grown d).elem_size)
         (DA_PTR_FROM_IDX (grown d) i) (((grown d).size - i) * (grown d).elem_size))
         (DA_PTR_FROM_IDX (grown d) i) v (grown d).elem_size } : da_ctx) = _
  rw [hbuf, h1, h2]
  simp [memcpy, memmove, insert_bytes, DA_PTR_FROM_IDX, h2]

/-- The growth step keeps every live element where it is. -/
theorem grown_read (d : da_ctx) (hd : valid d) (buf : List mem_byte)
    (hk : ∀ k, k < d.size * d.elem_size → buf[k]? = (d.data.getD [])[k]?)
    (j : Nat) (hj : j < d.size) :
    some (mem_read buf (j * d.elem_size) d.elem_size) = da_get (some d) j := by
  obtain ⟨buf0, hb0, _⟩ := valid_storage d hd (by omega)
  rw [da_get_of_lt d buf0 j hb0 hj]
  congr 1
  apply mem_read_congr
  intro k hk'
  have := slot_succ_le d.elem_size hj
  rw [hk (j * d.elem_size + k) (by omega), hb0]
  rfl

/-- What an accepted `da_insert` does to a valid array. -/
theorem da_insert_spec (d : da_ctx) (i : Nat) (v : List mem_byte) (hd : valid d)
    (hi : i ≤ d.size) (hv : v.length = d.elem_size) :
    ∃ d', da_insert (some d) i (some v) = some d' ∧ valid d' ∧ d'.size = d.size + 1 ∧
      d'.elem_size = d.elem_size ∧ d'.capacity = (grown d).capacity ∧
      da_get (some d') i = some v ∧
      (∀ j, j < i → da_get (some d') j = da_get (some d) j) ∧
      (∀ j, i ≤ j → j < d.size → da_get (some d') (j + 1) = da_get (some d) j) := by
  obtain ⟨buf, hbuf, hlen, hroom, hkeep⟩ := grown_data d hd
  have hroom' : (d.size + 1) * d.elem_size ≤ buf.length := by
    rw [hlen]; exact Nat.mul_le_mul_right _ hroom
  refine ⟨_, da_insert_eq d i v hi buf hbuf, ?_, rfl, rfl, rfl, ?_, ?_, ?_⟩
  · refine ⟨hd.1, hroom, ?_⟩
    show 0 < (grown d).capacity ∧ (insert_bytes buf d.elem_size d.size i v).length = _
    rw [length_insert_bytes]
    exact ⟨by omega, hlen⟩
  · rw [da_get_of_lt _ _ i rfl (by show i < d.size + 1; omega)]
    exact congrArg some (insert_bytes_at buf d.elem_size d.size i v hi hv hroom')
  · intro j hj
    rw [da_get_of_lt _ _ j rfl (by show j < d.size + 1; omega)]
    show some (mem_read (insert_bytes buf d.elem_size d.size i v) (j * d.elem_size) d.elem_size) = _
    rw [insert_bytes_below buf d.elem_size d.size i j v hi hj hv hroom']
    exact grown_read d hd buf hkeep j (by omega)
  · intro j hij hj
    rw [da_get_of_lt _ _ (j + 1) rfl (by show j + 1 < d.size + 1; omega)]
    show some (mem_read (insert_bytes buf d.elem_size d.size i v) ((j + 1) * d.elem_size)
      d.elem_size) = _
    rw [insert_bytes_above buf d.elem_size d.size i j v hij hj hv hroom']
    exact grown_read d hd buf hkeep j hj

/-- C1: for a valid array `d` of size `s`, an index `i <= s` and a value `v` of
`elem_size` bytes, `da_insert(d, i, v)` gives an array of size `s + 1` in which
`da_get` at `i` is `v`, every element formerly at `j < i` is still at `j`, and
every element formerly at `j` with `i <= j < s` is now at `j + 1`. -/
theorem da_insert_contract (d : da_ctx) (i : Nat) (v : List mem_byte) (hd : valid d)
    (hi : i ≤ d.size) (hv : v.length = d.elem_size) :
    da_size (da_insert (some d) i (some v)) = d.size + 1 ∧
    da_get (da_insert (some d) i (some v)) i = some v ∧
    (∀ j, j < i → da_get (da_insert (some d) i (some v)) j = da_get (some d) j) ∧
    (∀ j, i ≤ j → j < d.size →
      da_get (da_insert (some d) i (some v)) (j + 1) = da_get (some d) j) := by
  obtain ⟨d', h, _, hs, _, _, hat, hlo, hhi⟩ := da_insert_spec d i v hd hi hv
  rw [h]
  exact ⟨hs, hat, hlo, hhi⟩

/-- C1 at a full array of two 2-byte elements, inserting in the middle. -/
theorem da_insert_contract_witness :
    valid ⟨2, 2, 2, some [some 1, some 2, some 3, some 4]⟩ ∧
    da_size (da_insert (some ⟨2, 2, 2, some [some 1, some 2, some 3, some 4]⟩) 1
      (some [some 9, some 8])) = 3 ∧
    da_get (da_insert (some ⟨2, 2, 2, some [some 1, some 2, some 3, some 4]⟩) 1
      (some [some 9, some 8])) 1 = some [some 9, some 8] :=
  ⟨by decide,
   (da_insert_contract ⟨2, 2, 2, some [some 1, some 2, some 3, some 4]⟩ 1 [some 9, some 8]
      (by decide) (by decide) (by decide)).1,
   (da_insert_contract ⟨2, 2, 2, some [some 1, some 2, some 3, some 4]⟩ 1 [some 9, some 8]
      (by decide) (by decide) (by decide)).2.1⟩

/-! ## `da_erase` -/

theorem erase_bytes_below (buf : List mem_byte) (es s i j : Nat)
    (hi : i < s) (hj : j < i) (hroom : s * es ≤ buf.length) :
    mem_read (erase_bytes buf es s i) (j * es) es = mem_read buf (j * es) es := by
  have h4 := slot_succ_le es hj
  have h5 := slot_succ_le es hi
  apply mem_read_congr
  intro k hk
  unfold erase_bytes
  rw [getElem?_mem_write, if_pos (by omega), if_neg (by omega)]

theorem erase_bytes_above (buf : List mem_byte) (es s i j : Nat)
    (hi : i < j) (hj : j < s) (hroom : s * es ≤ buf.length) :
    mem_read (erase_bytes buf es s i) ((j - 1) * es) es = mem_read buf (j * es) es := by
  have h1 : i * es ≤ (j - 1) * es := Nat.mul_le_mul_right es (by omega)
  have h2 : (j - 1) * es + es = j * es := by
    rw [← Nat.succ_mul]; congr 1; omega
  have h4 := slot_succ_le es hj
  have h5 : (s - i - 1) * es = s * es - i * es - es := by
    rw [Nat.sub_mul, Nat.sub_mul, Nat.one_mul]
  have h6 : (mem_read buf (i * es + es) ((s - i - 1) * es)).length = (s - i - 1) * es :=
    length_mem_read _ _ _ (by omega)
  apply mem_read_congr
  intro k hk
  unfold erase_bytes
  rw [getElem?_mem_write, if_pos (by omega), if_pos (by omega), getElem?_mem_read,
    if_pos (by omega)]
  congr 1; omega

theorem copy_out_full (o e : List mem_byte) (n : Nat) (ho : o.length = n) (he : e.length = n) :
    copy_out (some o) (some e) n = some e := by
  have h3 : e.take n = e := by rw [← he]; exact List.take_length e
  show some (mem_write o 0 (e.take n)) = some e
  rw [h3]
  congr 1
  apply List.ext_getElem?
  intro k
  rw [getElem?_mem_write]
  by_cases hk : k < o.length
  · rw [if_pos hk, if_pos (by omega)]; rfl
  · rw [if_neg hk, List.getElem?_eq_none (by omega)]

theorem da_erase_eq (d : da_ctx) (i : Nat) (out : Option (List mem_byte)) (hi : i < d.size)
    (buf : List mem_byte) (hbuf : d.data = some buf) :
    da_erase (some d) i out =
      (some { size := d.size - 1, capacity := d.capacity, elem_size := d.elem_size,
              data := some (erase_bytes buf d.elem_size d.size i) },
       copy_out out (some (mem_read buf (i * d.elem_size) d.elem_size)) d.elem_size) := by
  have h : ¬ (da_is_empty (some d) = true ∨ i ≥ d.size) := by
    simp [da_is_empty]; omega
  unfold da_erase
  simp only [h, if_false]
  rw [da_get_of_lt d buf i hbuf hi]
  simp [memmove, erase_bytes, DA_PTR_FROM_IDX, hbuf]

/-- C2: for a valid array `d` of size `s` and an index `i < s`,
`da_erase(d, i, out)` stores the element formerly at `i` in `out` when `out` is
given (a block of `elem_size` bytes), gives size `s - 1`, leaves every element
at `j < i` in place, moves every element formerly at `j` with `i < j < s` to
`j - 1`, and leaves the capacity unchanged. -/
theorem da_erase_contract (d : da_ctx) (i : Nat) (out : Option (List mem_byte)) (hd : valid d)
    (hi : i < d.size) (hout : ∀ o, out = some o → o.length = d.elem_size) :
    (out.isSome = true → (da_erase (some d) i out).2 = da_get (some d) i) ∧
    (out = none → (da_erase (some d) i out).2 = none) ∧
    da_size (da_erase (some d) i out).1 = d.size - 1 ∧
    (∀ j, j < i → da_get (da_erase (some d) i out).1 j = da_get (some d) j) ∧
    (∀ j, i < j → j < d.size →
      da_get (da_erase (some d) i out).1 (j - 1) = da_get (some d) j) ∧
    da_capacity (da_erase (some d) i out).1 = d.capacity := by
  obtain ⟨buf, hbuf, hlen⟩ := valid_storage d hd (by omega)
  have hroom : d.size * d.elem_size ≤ buf.length := by
    rw [hlen]; exact Nat.mul_le_mul_right _ hd.2.1
  have hslot := slot_succ_le d.elem_size hi
  rw [da_erase_eq d i out hi buf hbuf]
  refine ⟨?_, ?_, rfl, ?_, ?_, rfl⟩
  · intro ho
    cases out with
    | none => simp at ho
    | some o =>
      rw [da_get_of_lt d buf i hbuf hi]
      exact copy_out_full o _ d.elem_size (hout o rfl) (length_mem_read _ _ _ (by omega))
  · intro ho
    rw [ho]; rfl
  · intro j hj
    rw [da_get_of_lt _ _ j rfl (by show j < d.size - 1; omega), da_get_of_lt d buf j hbuf (by omega)]
    exact congrArg some (erase_bytes_below buf d.elem_size d.size i j hi hj hroom)
  · intro j hij hj
    rw [da_get_of_lt _ _ (j - 1) rfl (by show j - 1 < d.size - 1; omega),
      da_get_of_lt d buf j hbuf hj]
    exact congrArg some (erase_bytes_above buf d.elem_size d.size i j hij hj hroom)

/-- C2 at an array of three 2-byte elements, erasing the first one. -/
theorem da_erase_contract_witness :
    valid ⟨3, 4, 2, some [some 1, some 2, some 3, some 4, some 5, some 6, none, none]⟩ ∧
    (da_erase (some ⟨3, 4, 2, some [some 1, some 2, some 3, some 4, some 5, some 6, none, none]⟩)
      0 (some [none, none])).2 = some [some 1, some 2] ∧
    da_get (da_erase
      (some ⟨3, 4, 2, some [some 1, some 2, some 3, some 4, some 5, some 6, none, none]⟩)
      0 (some [none, none])).1 1 = some [some 5, some 6] :=
  ⟨by decide,
   (da_erase_contract ⟨3, 4, 2, some [some 1, some 2, some 3, some 4, some 5, some 6, none, none]⟩
      0 (some [none, none]) (by decide) (by decide)
      (by intro o h; cases h; rfl)).1 rfl,
   (da_erase_contract ⟨3, 4, 2, some [some 1, some 2, some 3, some 4, some 5, some 6, none, none]⟩
      0 (some [none, none]) (by decide) (by decide)
      (by intro o h; cases h; rfl)).2.2.2.2.1 2 (by decide) (by decide)⟩

/-! ## `da_push` and `da_pop` -/

theorem mem_write_nil (buf : List mem_byte) (off : Nat) : mem_write buf off [] = buf := by
  apply List.ext_getElem?
  intro k
  rw [getElem?_mem_write]
  by_cases hk : k < buf.length
  · rw [if_pos hk, if_neg (by simp)]
  · rw [if_neg hk, List.getElem?_eq_none (by omega)]

/-- Appending is inserting at the end: the shift of `da_insert` moves no byte. -/
theorem da_push_eq_insert (d : da_ctx) (elem : Option (List mem_byte)) :
    da_push (some d) elem = da_insert (some d) d.size elem := by
  cases elem with
  | none => rfl
  | some v =>
    unfold da_push da_insert
    simp only [gt_iff_lt, lt_self_iff_false, if_false]
    have hs := grown_size d
    unfold grown at hs
    simp only [hs, Nat.sub_self, Nat.zero_mul]
    congr 2
    cases (if d.size = d.capacity then da_realloc d (if d.capacity ≠ 0 then d.capacity * 2 else 1)
      else d).data with
    | none => rfl
    | some buf => simp [memmove, mem_read, mem_write_nil]

theorem da_push_spec (d : da_ctx) (v : List mem_byte) (hd : valid d)
    (hv : v.length = d.elem_size) :
    ∃ d', da_push (some d) (some v) = some d' ∧ valid d' ∧ d'.size = d.size + 1 ∧
      d'.elem_size = d.elem_size ∧ d'.capacity = (grown d).capacity ∧
      da_get (some d') d.size = some v ∧
      (∀ j, j < d.size → da_get (some d') j = da_get (some d) j) := by
  obtain ⟨d', h, hv', hs, he, hc, hat, hlo, _⟩ := da_insert_spec d d.size v hd (le_refl _) hv
  exact ⟨d', by rw [da_push_eq_insert, h], hv', hs, he, hc, hat, hlo⟩

theorem da_pop_eq (d : da_ctx) (out : Option (List mem_byte)) (hs : 0 < d.size) :
    da_pop (some d) out =
      (some { d with size := d.size - 1 },
       copy_out out (da_get (some d) (d.size - 1)) d.elem_size) := by
  have h : da_is_empty (some d) = false := by
    simp [da_is_empty]; omega
  unfold da_pop da_back
  simp only [h, Bool.false_eq_true, if_false]

/-- Reading below the size does not depend on the size. -/
theorem da_get_size_irrel (d : da_ctx) (n j : Nat) (hj : j < n) (hj' : j < d.size) :
    da_get (some { d with size := n }) j = da_get (some d) j := by
  unfold da_get
  have h1 : ¬ (da_is_empty (some { d with size := n }) = true ∨ j ≥ n) := by
    simp [da_is_empty]; omega
  have h2 : ¬ (da_is_empty (some d) = true ∨ j ≥ d.size) := by
    simp [da_is_empty]; omega
  simp only [h1, h2, if_false]
  rfl

theorem da_get_length (d : da_ctx) (hd : valid d) (j : Nat) (hj : j < d.size) :
    ∃ e, da_get (some d) j = some e ∧ e.length = d.elem_size := by
  obtain ⟨buf, hbuf, hlen⟩ := valid_storage d hd (by omega)
  have h1 := slot_succ_le d.elem_size hj
  have h2 : d.size * d.elem_size ≤ buf.length := by
    rw [hlen]; exact Nat.mul_le_mul_right _ hd.2.1
  exact ⟨_, da_get_of_lt d buf j hbuf hj, length_mem_read _ _ _ (by omega)⟩

theorem push_pop_aux (vs : List (List mem_byte)) :
    ∀ (d : da_ctx) (o : List mem_byte), valid d → (∀ v ∈ vs, v.length = d.elem_size) →
      o.length = d.elem_size →
      ∃ d' o', pop_each vs.length (push_all (some d) vs, some o, []) =
          (some d', some o', vs.reverse.map some) ∧
        d'.size = d.size ∧ d'.elem_size = d.elem_size ∧ o'.length = d.elem_size ∧
        ∀ j, j < d.size → da_get (some d') j = da_get (some d) j := by
  induction vs with
  | nil =>
    intro d o _ _ ho
    exact ⟨d, o, rfl, rfl, rfl, ho, fun _ _ => rfl⟩
  | cons v vs ih =>
    intro d o hd hvs ho
    obtain ⟨d1, hpush, hd1, hs1, he1, _, hat1, hlo1⟩ :=
      da_push_spec d v hd (hvs v (List.mem_cons_self _ _))
    obtain ⟨d2, o2, hrun, hs2, he2, ho2, hget2⟩ := ih d1 o hd1
      (fun w hw => by rw [he1]; exact hvs w (List.mem_cons_of_mem _ hw)) (by rw [he1]; exact ho)
    have hstep : pop_each (v :: vs).length (push_all (some d) (v :: vs), some o, []) =
        pop_step (pop_each vs.length (push_all (some d1) vs, some o, [])) := by
      unfold pop_each
      rw [List.length_cons, Function.iterate_succ_apply']
      show pop_step (pop_step^[vs.length] (push_all (da_push (some d) (some v)) vs, some o, []))
        = _
      rw [hpush]
    have hlast : da_get (some d2) (d2.size - 1) = some v := by
      rw [hs2, hs1, Nat.add_sub_cancel, hget2 d.size (by omega)]
      exact hat1
    refine ⟨{ d2 with size := d2.size - 1 }, v, ?_, ?_, ?_, ?_, ?_⟩
    · rw [hstep, hrun]
      unfold pop_step
      simp only
      rw [da_pop_eq d2 (some o2) (by omega), hlast,
        copy_out_full o2 v d2.elem_size (by rw [ho2, he2]) (by
          rw [he2, he1]; exact hvs v (List.mem_cons_self _ _))]
      simp
    · show d2.size - 1 = d.size
      omega
    · show d2.elem_size = d.elem_size
      rw [he2, he1]
    · exact hvs v (List.mem_cons_self _ _)
    · intro j hj
      rw [da_get_size_irrel d2 (d2.size - 1) j (by omega) (by omega), hget2 j (by omega)]
      exact hlo1 j hj

/-- C3: for a valid array `d` and values `vs = v_1..v_N` of `elem_size` bytes
each, pushing `v_1..v_N` with `da_push` and then calling `da_pop` `N` times
(with an out block of `elem_size` bytes) gives back the original size and the
original elements, and the popped values are `v_N, ..., v_1` in that order. -/
theorem push_pop_lifo (d : da_ctx) (vs : List (List mem_byte)) (o : List mem_byte)
    (hd : valid d) (hvs : ∀ v ∈ vs, v.length = d.elem_size) (ho : o.length = d.elem_size) :
    da_size (pop_each vs.length (push_all (some d) vs, some o, [])).1 = d.size ∧
    (∀ j, j < d.size →
      da_get (pop_each vs.length (push_all (some d) vs, some o, [])).1 j = da_get (some d) j) ∧
    (pop_each vs.length (push_all (some d) vs, some o, [])).2.2 = vs.reverse.map some ∧
    (∀ k, k < vs.length →
      (pop_each vs.length (push_all (some d) vs, some o, [])).2.2[k]? =
        some (vs[vs.length - 1 - k]?)) := by
  obtain ⟨d', o', hrun, hs, _, _, hget⟩ := push_pop_aux vs d o hd hvs ho
  rw [hrun]
  refine ⟨hs, hget, rfl, ?_⟩
  intro k hk
  show (vs.reverse.map some)[k]? = _
  rw [List.getElem?_map, List.getElem?_reverse hk, List.getElem?_eq_getElem (by omega)]
  rfl

/-- C3 at an array holding one 2-byte element, with two values pushed and popped. -/
theorem push_pop_lifo_witness :
    valid ⟨1, 1, 2, some [some 1, some 2]⟩ ∧
    (pop_each 2 (push_all (some ⟨1, 1, 2, some [some 1, some 2]⟩)
      [[some 5, some 6], [some 7, some 8]], some [none, none], [])).2.2 =
      [some [some 7, some 8], some [some 5, some 6]] ∧
    da_get (pop_each 2 (push_all (some ⟨1, 1, 2, some [some 1, some 2]⟩)
      [[some 5, some 6], [some 7, some 8]], some [none, none], [])).1 0 =
      some [some 1, some 2] :=
  ⟨by decide,
   (push_pop_lifo ⟨1, 1, 2, some [some 1, some 2]⟩ [[some 5, some 6], [some 7, some 8]]
      [none, none] (by decide) (by decide) (by decide)).2.2.1,
   (push_pop_lifo ⟨1, 1, 2, some [some 1, some 2]⟩ [[some 5, some 6], [some 7, some 8]]
      [none, none] (by decide) (by decide) (by decide)).2.1 0 (by decide)⟩

/-! ## The fill loop -/

theorem foldl_fill_eq (l : List Nat) (v : List mem_byte) :
    ∀ d : da_ctx,
      l.foldl (fun d i => { d with data := memcpy d.data (DA_PTR_FROM_IDX d i) v d.elem_size }) d
        = { d with data := d.data.map (fun b => fill_bytes b d.elem_size l v) } := by
  induction l with
  | nil =>
    intro d
    cases d with
    | mk s c e data => cases data <;> rfl
  | cons i l ih =>
    intro d
    rw [List.foldl_cons, ih]
    cases d with
    | mk s c e data => cases data <;> rfl

theorem fill_loop_eq (d : da_ctx) (lo hi : Nat) (v : List mem_byte) :
    fill_loop d lo hi v =
      { d with data := d.data.map (fun b => fill_bytes b d.elem_size (List.range' lo (hi - lo)) v) } :=
  foldl_fill_eq _ v d

/-! ## Capacity and size of the results -/

theorem da_insert_fields (d : da_ctx) (i : Nat) (v : List mem_byte) (hi : i ≤ d.size) :
    ∃ d', da_insert (some d) i (some v) = some d' ∧ d'.size = d.size + 1 ∧
      d'.capacity = (grown d).capacity ∧ d'.elem_size = d.elem_size := by
  unfold da_insert
  simp only [gt_iff_lt, if_neg (Nat.not_lt.mpr hi)]
  exact ⟨_, rfl, congrArg (· + 1) (grown_size d), rfl, grown_elem_size d⟩

theorem da_resize_fields (d : da_ctx) (n : Nat) (f : Option (List mem_byte)) :
    ∃ d', da_resize (some d) n f = some d' ∧ d'.size = n ∧
      d'.capacity = (if n > d.capacity then n else d.capacity) ∧ d'.elem_size = d.elem_size := by
  unfold da_resize
  refine ⟨_, rfl, rfl, ?_, ?_⟩ <;> cases f <;> simp only [fill_loop_eq] <;>
    split_ifs <;> rfl

theorem da_call_fields (d : da_ctx) (c : da_call) :
    ∃ d', c.run (some d) = some d' ∧ d'.elem_size = d.elem_size ∧
      (d'.capacity = d.capacity ∨ d'.capacity = (grown d).capacity ∨
        ∃ n, d.capacity < n ∧ d'.capacity = n) ∧
      (d.size ≤ d.capacity → d'.size ≤ d'.capacity) := by
  cases c with
  | set i elem =>
    cases elem with
    | none => exact ⟨d, rfl, rfl, Or.inl rfl, id⟩
    | some v =>
      show ∃ d', da_set (some d) i (some v) = some d' ∧ _
      unfold da_set
      simp only
      split_ifs
      · exact ⟨d, rfl, rfl, Or.inl rfl, id⟩
      · exact ⟨_, rfl, rfl, Or.inl rfl, id⟩
  | insert i elem =>
    cases elem with
    | none => exact ⟨d, rfl, rfl, Or.inl rfl, id⟩
    | some v =>
      by_cases hi : i ≤ d.size
      · obtain ⟨d', h, hs, hc, he⟩ := da_insert_fields d i v hi
        refine ⟨d', h, he, Or.inr (Or.inl hc), ?_⟩
        intro hle
        rw [hs, hc, grown_capacity]
        split_ifs <;> omega
      · refine ⟨d, ?_, rfl, Or.inl rfl, id⟩
        show da_insert (some d) i (some v) = some d
        unfold da_insert
        simp only [gt_iff_lt, if_pos (Nat.lt_of_not_le hi)]
  | erase i o_elem =>
    show ∃ d', (da_erase (some d) i o_elem).1 = some d' ∧ _
    unfold da_erase
    simp only
    split_ifs
    · exact ⟨d, rfl, rfl, Or.inl rfl, id⟩
    · exact ⟨_, rfl, rfl, Or.inl rfl, fun h => by show d.size - 1 ≤ d.capacity; omega⟩
  | push elem =>
    cases elem with
    | none => exact ⟨d, rfl, rfl, Or.inl rfl, id⟩
    | some v =>
      obtain ⟨d', h, hs, hc, he⟩ := da_insert_fields d d.size v (le_refl _)
      refine ⟨d', ?_, he, Or.inr (Or.inl hc), ?_⟩
      · show da_push (some d) (some v) = some d'
        rw [da_push_eq_insert, h]
      · intro hle
        rw [hs, hc, grown_capacity]
        split_ifs <;> omega
  | pop o_elem =>
    show ∃ d', (da_pop (some d) o_elem).1 = some d' ∧ _
    unfold da_pop
    simp only
    split_ifs
    · exact ⟨d, rfl, rfl, Or.inl rfl, id⟩
    · exact ⟨_, rfl, rfl, Or.inl rfl, fun h => by show d.size - 1 ≤ d.capacity; omega⟩
  | clear => exact ⟨_, rfl, rfl, Or.inl rfl, fun _ => Nat.zero_le _⟩
  | resize n f =>
    obtain ⟨d', h, hs, hc, he⟩ := da_resize_fields d n f
    refine ⟨d', h, he, ?_, ?_⟩
    · rw [hc]
      split_ifs with hn
      · exact Or.inr (Or.inr ⟨n, hn, rfl⟩)
      · exact Or.inl rfl
    · intro _
      rw [hs, hc]
      split_ifs <;> omega
  | reserve n =>
    show ∃ d', da_reserve (some d) n = some d' ∧ _
    unfold da_reserve
    simp only
    split_ifs with hn
    · exact ⟨_, rfl, rfl, Or.inr (Or.inr ⟨n, hn, rfl⟩),
        fun h => by show d.size ≤ n; omega⟩
    · exact ⟨d, rfl, rfl, Or.inl rfl, id⟩

theorem da_create_pos (es : Nat) (hes : 0 < es) :
    da_create es = some { size := 0, capacity := 0, elem_size := es, data := none } := by
  unfold da_create
  rw [if_neg (by omega)]

theorem da_create_n_eq (es n : Nat) (iv : Option (List mem_byte)) (hes : 0 < es) (hn : 0 < n) :
    da_create_n es n iv =
      some { size := n, capacity := n, elem_size := es,
             data := (realloc none (n * es)).map (fun b =>
               match iv with
               | some v => fill_bytes b es (List.range' 0 n) v
               | none => b) } := by
  unfold da_create_n
  rw [if_neg (by omega), da_create_pos es hes]
  simp only [if_neg (show ¬ n = 0 by omega)]
  cases iv with
  | none =>
    simp only [da_realloc]
    cases realloc none (n * es) <;> rfl
  | some v =>
    simp only [fill_loop_eq, da_realloc, Nat.sub_zero]

theorem da_create_n_zero (es : Nat) (iv : Option (List mem_byte)) :
    da_create_n es 0 iv = da_create es := by
  unfold da_create_n
  by_cases hes : es = 0
  · rw [if_pos hes]
    unfold da_create
    rw [if_pos hes]
  · rw [if_neg hes, da_create_pos es (by omega)]
    rfl

theorem da_dup_eq (o : da_ctx) (hes : 0 < o.elem_size) :
    da_dup (some o) =
      some { size := o.size, capacity := o.capacity, elem_size := o.elem_size,
             data := memcpy (if 0 < o.capacity then realloc none (o.capacity * o.elem_size)
                 else none) 0 (o.data.getD []) (o.size * o.elem_size) } := by
  unfold da_dup
  simp only [da_create_pos o.elem_size hes, da_reserve]
  by_cases hc : 0 < o.capacity
  · simp only [gt_iff_lt, hc, if_true, da_realloc]
  · have : o.capacity = 0 := by omega
    simp only [gt_iff_lt, hc, if_false]
    rw [this]

/-- C4: `size <= capacity` holds for every result of `da_create` and
`da_create_n`, for the result of `da_dup` on a source that satisfies it, and
after every call of a mutator (`da_set`, `da_insert`, `da_erase`, `da_push`,
`da_pop`, `da_clear`, `da_resize`, `da_reserve`, with any arguments) on an
array that satisfies it. -/
theorem size_le_capacity_invariant :
    (∀ es, da_size (da_create es) ≤ da_capacity (da_create es)) ∧
    (∀ es n iv, da_size (da_create_n es n iv) ≤ da_capacity (da_create_n es n iv)) ∧
    (∀ o : da_ctx, o.size ≤ o.capacity →
      da_size (da_dup (some o)) ≤ da_capacity (da_dup (some o))) ∧
    (∀ (d : da_ctx) (c : da_call), d.size ≤ d.capacity →
      ∃ d', c.run (some d) = some d' ∧ d'.size ≤ d'.capacity) := by
  refine ⟨?_, ?_, ?_, ?_⟩
  · intro es
    unfold da_create
    split_ifs <;> exact le_refl _
  · intro es n iv
    by_cases hes : 0 < es
    · by_cases hn : 0 < n
      · rw [da_create_n_eq es n iv hes hn]
        exact le_refl _
      · have : n = 0 := by omega
        rw [this, da_create_n_zero, da_create_pos es hes]
        exact le_refl _
    · have : es = 0 := by omega
      rw [this]
      exact le_refl _
  · intro o ho
    by_cases hes : 0 < o.elem_size
    · rw [da_dup_eq o hes]
      exact ho
    · have h0 : o.elem_size = 0 := by omega
      have : da_dup (some o) = none := by
        unfold da_dup da_create
        simp only [h0, if_true]
      rw [this]
      exact le_refl _
  · intro d c hd
    obtain ⟨d', h, _, _, hinv⟩ := da_call_fields d c
    exact ⟨d', h, hinv hd⟩

/-- C4 at a full array of two elements receiving a `da_push`. -/
theorem size_le_capacity_invariant_witness :
    (2 ≤ 2) ∧
    ∃ d', (da_call.push (some [some 9, some 8])).run
        (some ⟨2, 2, 2, some [some 1, some 2, some 3, some 4]⟩) = some d' ∧
      d'.size ≤ d'.capacity :=
  ⟨by decide,
   size_le_capacity_invariant.2.2.2 ⟨2, 2, 2, some [some 1, some 2, some 3, some 4]⟩
     (da_call.push (some [some 9, some 8])) (by decide)⟩

/-- C5: on an accepted `da_push` or `da_insert` call (an array, a value, and
for `da_insert` an index `i <= size`), the capacity becomes
`max(1, 2 * capacity)` when `size == capacity` held before the call, which is 1
for a capacity of 0, and is unchanged when `size < capacity` held. -/
theorem growth_policy (d : da_ctx) (i : Nat) (v : List mem_byte) (hi : i ≤ d.size) :
    (d.size = d.capacity →
      da_capacity (da_push (some d) (some v)) = max 1 (2 * d.capacity) ∧
      da_capacity (da_insert (some d) i (some v)) = max 1 (2 * d.capacity)) ∧
    (d.size = d.capacity → d.capacity = 0 →
      da_capacity (da_push (some d) (some v)) = 1 ∧
      da_capacity (da_insert (some d) i (some v)) = 1) ∧
    (d.size < d.capacity →
      da_capacity (da_push (some d) (some v)) = d.capacity ∧
      da_capacity (da_insert (some d) i (some v)) = d.capacity) := by
  obtain ⟨d1, h1, _, hc1, _⟩ := da_insert_fields d d.size v (le_refl _)
  obtain ⟨d2, h2, _, hc2, _⟩ := da_insert_fields d i v hi
  rw [da_push_eq_insert, h1, h2]
  show (_ → d1.capacity = _ ∧ d2.capacity = _) ∧ (_ → _ → d1.capacity = _ ∧ d2.capacity = _) ∧
    (_ → d1.capacity = _ ∧ d2.capacity = _)
  rw [hc1, hc2, grown_capacity]
  refine ⟨?_, ?_, ?_⟩
  · intro h
    rw [if_pos h]
    split_ifs <;> omega
  · intro h h0
    rw [if_pos h]
    split_ifs <;> omega
  · intro h
    rw [if_neg (by omega)]
    exact ⟨rfl, rfl⟩

/-- C5 at a full array of capacity 2 (insertion in the middle) . -/
theorem growth_policy_witness :
    (1 ≤ 2) ∧
    da_capacity (da_push (some ⟨2, 2, 2, some [some 1, some 2, some 3, some 4]⟩)
      (some [some 9, some 8])) = 4 ∧
    da_capacity (da_insert (some ⟨2, 2, 2, some [some 1, some 2, some 3, some 4]⟩) 1
      (some [some 9, some 8])) = 4 :=
  ⟨by decide,
   (growth_policy ⟨2, 2, 2, some [some 1, some 2, some 3, some 4]⟩ 1 [some 9, some 8]
     (by decide)).1 rfl⟩

/-! ## `da_resize` and `da_reserve` -/

/-- C9: `da_create(0)` is absent; for every `elem_size > 0`, `da_create(elem_size)`
is an array with size 0, capacity 0, `da_is_empty` true and no buffer (`da_data`
absent); `da_create_n(0, n, v)` is absent for every `n` and `v`. -/
theorem da_create_contract :
    da_create 0 = none ∧
    (∀ es, 0 < es →
      (da_create es).isSome = true ∧ da_size (da_create es) = 0 ∧
      da_capacity (da_create es) = 0 ∧ da_is_empty (da_create es) = true ∧
      da_data (da_create es) = none ∧
      ∀ d, da_create es = some d → d.elem_size = es) ∧
    (∀ n iv, da_create_n 0 n iv = none) := by
  refine ⟨rfl, ?_, fun _ _ => rfl⟩
  intro es hes
  rw [da_create_pos es hes]
  exact ⟨rfl, rfl, rfl, rfl, rfl, fun d h => by cases h; rfl⟩

/-- C9 for an element size of 8. -/
theorem da_create_contract_witness :
    (0 < 8) ∧ da_size (da_create 8) = 0 ∧ da_capacity (da_create 8) = 0 ∧
    da_is_empty (da_create 8) = true ∧ da_data (da_create 8) = none :=
  ⟨by decide, (da_create_contract.2.1 8 (by decide)).2.1, (da_create_contract.2.1 8 (by decide)).2.2.1,
   (da_create_contract.2.1 8 (by decide)).2.2.2.1, (da_create_contract.2.1 8 (by decide)).2.2.2.2.1⟩

/-- What `da_dup` builds from a valid array. -/
theorem da_dup_spec (x : da_ctx) (hx : valid x) :
    ∃ d', da_dup (some x) = some d' ∧ valid d' ∧ d'.elem_size = x.elem_size ∧
      d'.size = x.size ∧ d'.capacity = x.capacity ∧
      ∀ i, i < x.size → da_get (some d') i = da_get (some x) i := by
  have heq := da_dup_eq x hx.1
  by_cases hc : 0 < x.capacity
  · obtain ⟨b0, hb0, hbl0⟩ : ∃ b, x.data = some b ∧ b.length = x.capacity * x.elem_size := by
      obtain ⟨_, _, h⟩ := hx
      cases hdata : x.data with
      | none => rw [hdata] at h; simp at h; omega
      | some b => rw [hdata] at h; exact ⟨b, rfl, h.2⟩
    obtain ⟨b1, hb1, hbl1, _⟩ :=
      realloc_grow none (x.capacity * x.elem_size) (Nat.mul_pos hc hx.1) (Nat.zero_le _)
    rw [if_pos hc, hb1, hb0] at heq
    have hsc : x.size * x.elem_size ≤ x.capacity * x.elem_size :=
      Nat.mul_le_mul_right _ hx.2.1
    refine ⟨_, heq, ?_, rfl, rfl, rfl, ?_⟩
    · refine ⟨hx.1, hx.2.1, ?_⟩
      show 0 < x.capacity ∧ (mem_write b1 0 _).length = x.capacity * x.elem_size
      exact ⟨hc, by rw [length_mem_write, hbl1]⟩
    · intro i hi
      rw [da_get_of_lt _ _ i rfl (by exact hi), da_get_of_lt x b0 i hb0 hi]
      show some (mem_read (mem_write b1 0 (List.take (x.size * x.elem_size)
        ((some b0 : Option (List mem_byte)).getD []))) (i * x.elem_size) x.elem_size) = _
      congr 1
      have hslot := slot_succ_le x.elem_size hi
      apply mem_read_congr
      intro k hk
      have htl : (List.take (x.size * x.elem_size) b0).length = x.size * x.elem_size := by
        rw [List.length_take]; omega
      rw [getElem?_mem_write, if_pos (by omega), Option.getD_some, htl, if_pos (by omega),
        List.getElem?_take, if_pos (by omega)]
      rfl
  · have hc0 : x.capacity = 0 := by omega
    have hs0 : x.size = 0 := by have := hx.2.1; omega
    rw [if_neg hc] at heq
    refine ⟨_, heq, ?_, rfl, rfl, rfl, fun i hi => by omega⟩
    exact ⟨hx.1, hx.2.1, hc0⟩

/-- C10: for a valid array `x`, `da_dup(x)` is an array with the same
`elem_size`, the same size, a capacity at least the one of `x`, and `da_get`
equal to the one of `x` at every index below the size; `da_dup(NULL)` is
absent. The source `x` is only read: `da_dup` returns the new array and
nothing else. -/
theorem da_dup_contract (x : da_ctx) (hx : valid x) :
    (∃ d', da_dup (some x) = some d' ∧ d'.elem_size = x.elem_size ∧
      da_size (some d') = da_size (some x) ∧ x.capacity ≤ da_capacity (some d') ∧
      ∀ i, i < x.size → da_get (some d') i = da_get (some x) i) ∧
    da_dup none = none := by
  obtain ⟨d', h, _, he, hs, hc, hget⟩ := da_dup_spec x hx
  exact ⟨⟨d', h, he, hs, by show x.capacity ≤ d'.capacity; omega, hget⟩, rfl⟩

/-- C10 at an array of two elements with one spare slot. -/
theorem da_dup_contract_witness :
    valid ⟨2, 3, 1, some [some 1, some 2, some 3]⟩ ∧
    (∃ d', da_dup (some ⟨2, 3, 1, some [some 1, some 2, some 3]⟩) = some d' ∧
      d'.elem_size = 1 ∧ da_size (some d') = 2 ∧ 3 ≤ da_capacity (some d') ∧
      ∀ i, i < 2 → da_get (some d') i =
        da_get (some ⟨2, 3, 1, some [some 1, some 2, some 3]⟩) i) :=
  ⟨by decide, (da_dup_contract ⟨2, 3, 1, some [some 1, some 2, some 3]⟩ (by decide)).1⟩

/-! ## The representation invariant holds for every array built through the interface -/

/-- What `da_get` gives on a valid array: nothing from the size on, and the
`elem_size` bytes at offset `i * elem_size` of the storage below it. -/
theorem da_get_spec (d : da_ctx) (i : Nat) (hd : valid d) :
    (da_get (some d) i = none ↔ d.size ≤ i) ∧
    (i < d.size → ∃ buf, d.data = some buf ∧ (i + 1) * d.elem_size ≤ buf.length ∧
      da_get (some d) i = some (mem_read buf (i * d.elem_size) d.elem_size) ∧
      (mem_read buf (i * d.elem_size) d.elem_size).length = d.elem_size) := by
  have hslot : i < d.size → ∃ buf, d.data = some buf ∧ (i + 1) * d.elem_size ≤ buf.length ∧
      da_get (some d) i = some (mem_read buf (i * d.elem_size) d.elem_size) ∧
      (mem_read buf (i * d.elem_size) d.elem_size).length = d.elem_size := by
    intro hi
    obtain ⟨buf, hbuf, hlen⟩ := valid_storage d hd (by omega)
    have h1 := slot_succ_le d.elem_size hi
    have h2 : d.size * d.elem_size ≤ buf.length := by
      rw [hlen]; exact Nat.mul_le_mul_right _ hd.2.1
    have h3 : (i + 1) * d.elem_size = i * d.elem_size + d.elem_size := Nat.succ_mul _ _
    exact ⟨buf, hbuf, by omega, da_get_of_lt d buf i hbuf hi, length_mem_read _ _ _ (by omega)⟩
  refine ⟨⟨?_, ?_⟩, hslot⟩
  · intro hnone
    by_contra hlt
    obtain ⟨buf, _, _, hget, _⟩ := hslot (by omega)
    rw [hget] at hnone
    exact Option.noConfusion hnone
  · intro hle
    unfold da_get
    simp only
    rw [if_pos (Or.inr hle)]

theorem da_front_eq (a : Option da_ctx) : da_front a = da_get a 0 := by
  unfold da_front
  cases a with
  | none => rfl
  | some d =>
    by_cases h : da_is_empty (some d) = true
    · rw [if_pos h]
      unfold da_get
      simp only
      rw [if_pos (Or.inl h)]
    · rw [if_neg h]

theorem da_back_eq (a : Option da_ctx) : da_back a = da_get a (da_size a - 1) := by
  cases a with
  | none => rfl
  | some d =>
    unfold da_back
    simp only
    by_cases h : da_is_empty (some d) = true
    · rw [if_pos h]
      unfold da_get
      simp only
      rw [if_pos (Or.inl h)]
    · rw [if_neg h]
      rfl

/-- C11: `da_get(a, i)` is absent exactly when `a` is absent or `i >= size(a)`
(for a valid array `a`), and otherwise is the element at logical index `i`,
the `elem_size` bytes at offset `i * elem_size` of the storage; `da_front(a)`
is `da_get(a, 0)` and `da_back(a)` is `da_get(a, size - 1)`, both absent when
`a` is empty or absent. -/
theorem da_get_contract (a : Option da_ctx) (i : Nat) (ha : ∀ d, a = some d → valid d) :
    (da_get a i = none ↔ a = none ∨ da_size a ≤ i) ∧
    (∀ d, a = some d → i < d.size →
      ∃ buf, d.data = some buf ∧ (i + 1) * d.elem_size ≤ buf.length ∧
        da_get a i = some (mem_read buf (DA_PTR_FROM_IDX d i) d.elem_size) ∧
        (mem_read buf (DA_PTR_FROM_IDX d i) d.elem_size).length = d.elem_size) ∧
    da_front a = da_get a 0 ∧
    da_back a = da_get a (da_size a - 1) ∧
    (da_is_empty a = true → da_front a = none ∧ da_back a = none) := by
  refine ⟨?_, ?_, da_front_eq a, da_back_eq a, ?_⟩
  · cases a with
    | none => exact ⟨fun _ => Or.inl rfl, fun _ => rfl⟩
    | some d =>
      rw [(da_get_spec d i (ha d rfl)).1]
      exact ⟨fun h => Or.inr h, fun h => h.elim (fun h' => Option.noConfusion h') id⟩
  · intro d hd hi
    rw [hd]
    exact (da_get_spec d i (ha d hd)).2 hi
  · intro he
    cases a with
    | none => exact ⟨rfl, rfl⟩
    | some d =>
      unfold da_front da_back
      simp only
      rw [if_pos he, if_pos he]
      exact ⟨rfl, rfl⟩

/-- C11 at an array of two 2-byte elements, reading the second one. -/
theorem da_get_contract_witness :
    (∀ d, some (⟨2, 2, 2, some [some 1, some 2, some 3, some 4]⟩ : da_ctx) = some d → valid d) ∧
    (da_get (some ⟨2, 2, 2, some [some 1, some 2, some 3, some 4]⟩) 1 = none ↔
      (some (⟨2, 2, 2, some [some 1, some 2, some 3, some 4]⟩ : da_ctx) = none ∨
        da_size (some ⟨2, 2, 2, some [some 1, some 2, some 3, some 4]⟩) ≤ 1)) ∧
    da_back (some ⟨2, 2, 2, some [some 1, some 2, some 3, some 4]⟩) =
      da_get (some ⟨2, 2, 2, some [some 1, some 2, some 3, some 4]⟩) 1 :=
  ⟨fun d h => by cases h; decide,
   (da_get_contract (some ⟨2, 2, 2, some [some 1, some 2, some 3, some 4]⟩) 1
     (fun d h => by cases h; decide)).1,
   (da_get_contract (some ⟨2, 2, 2, some [some 1, some 2, some 3, some 4]⟩) 1
     (fun d h => by cases h; decide)).2.2.2.1⟩

/-! ## `da_set` -/

theorem da_set_eq (d : da_ctx) (i : Nat) (v : List mem_byte) (hi : i < d.size)
    (buf : List mem_byte) (hbuf : d.data = some buf) :
    da_set (some d) i (some v) =
      some { d with data := some (mem_write buf (i * d.elem_size) (v.take d.elem_size)) } := by
  have h : ¬ (da_is_empty (some d) = true ∨ i ≥ d.size) := by
    simp [da_is_empty]; omega
  unfold da_set
  simp only [h, if_false, memcpy, DA_PTR_FROM_IDX, hbuf, Option.map_some']

/-- What an accepted `da_set` does to a valid array. -/
theorem da_set_spec (d : da_ctx) (i : Nat) (v : List mem_byte) (hd : valid d)
    (hi : i < d.size) (hv : v.length = d.elem_size) :
    ∃ d', da_set (some d) i (some v) = some d' ∧ d'.size = d.size ∧
      d'.capacity = d.capacity ∧ d'.elem_size = d.elem_size ∧
      da_get (some d') i = some v ∧
      (∀ j, j < d.size → j ≠ i → da_get (some d') j = da_get (some d) j) := by
  obtain ⟨buf, hbuf, hlen⟩ := valid_storage d hd (by omega)
  have h3 : v.take d.elem_size = v := by rw [← hv]; exact List.take_length v
  have hroom : d.size * d.elem_size ≤ buf.length := by
    rw [hlen]; exact Nat.mul_le_mul_right _ hd.2.1
  have hslot := slot_succ_le d.elem_size hi
  refine ⟨_, da_set_eq d i v hi buf hbuf, rfl, rfl, rfl, ?_, ?_⟩
  · rw [da_get_of_lt _ _ i rfl (by exact hi), h3]
    have := mem_write_read_self buf (i * d.elem_size) v (by omega)
    rw [hv] at this
    exact congrArg some this
  · intro j hj hne
    rw [da_get_of_lt _ _ j rfl (by exact hj), da_get_of_lt d buf j hbuf hj, h3]
    show some (mem_read (mem_write buf (i * d.elem_size) v) (j * d.elem_size) d.elem_size) = _
    congr 1
    apply mem_read_congr
    intro k hk
    have hdis : j * d.elem_size + d.elem_size ≤ i * d.elem_size ∨
        i * d.elem_size + d.elem_size ≤ j * d.elem_size := by
      rcases Nat.lt_or_gt_of_ne hne with h | h
      · exact Or.inl (slot_succ_le _ h)
      · exact Or.inr (slot_succ_le _ h)
    have hj' := slot_succ_le d.elem_size hj
    rw [getElem?_mem_write, if_pos (by omega), if_neg (by omega)]

/-- C12: for a valid array `d`, an index `i < size` and a value `v` of
`elem_size` bytes, after `da_set(d, i, v)` `da_get` at `i` is `v`, the element
at every other index below the size is unchanged, and the size and the
capacity are unchanged. -/
theorem da_set_contract (d : da_ctx) (i : Nat) (v : List mem_byte) (hd : valid d)
    (hi : i < d.size) (hv : v.length = d.elem_size) :
    da_get (da_set (some d) i (some v)) i = some v ∧
    (∀ j, j < d.size → j ≠ i → da_get (da_set (some d) i (some v)) j = da_get (some d) j) ∧
    da_size (da_set (some d) i (some v)) = d.size ∧
    da_capacity (da_set (some d) i (some v)) = d.capacity := by
  obtain ⟨d', h, hs, hc, _, hat, hoth⟩ := da_set_spec d i v hd hi hv
  rw [h]
  exact ⟨hat, hoth, hs, hc⟩

/-- C12 at an array of two 2-byte elements, overwriting the first one. -/
theorem da_set_contract_witness :
    valid ⟨2, 2, 2, some [some 1, some 2, some 3, some 4]⟩ ∧
    da_get (da_set (some ⟨2, 2, 2, some [some 1, some 2, some 3, some 4]⟩) 0
      (some [some 9, some 8])) 0 = some [some 9, some 8] ∧
    da_get (da_set (some ⟨2, 2, 2, some [some 1, some 2, some 3, some 4]⟩) 0
      (some [some 9, some 8])) 1 = some [some 3, some 4] :=
  ⟨by decide,
   (da_set_contract ⟨2, 2, 2, some [some 1, some 2, some 3, some 4]⟩ 0 [some 9, some 8]
     (by decide) (by decide) (by decide)).1,
   (da_set_contract ⟨2, 2, 2, some [some 1, some 2, some 3, some 4]⟩ 0 [some 9, some 8]
     (by decide) (by decide) (by decide)).2.1 1 (by decide) (by decide)⟩

/-! ## Rejected calls -/

theorem da_set_reject (d : da_ctx) (i : Nat) (elem : Option (List mem_byte))
    (h : d.size ≤ i ∨ elem = none) : da_set (some d) i elem = some d := by
  cases elem with
  | none => rfl
  | some v =>
    have hi : d.size ≤ i := h.elim id (fun h' => Option.noConfusion h')
    unfold da_set
    simp only
    rw [if_pos (Or.inr hi)]

theorem da_insert_reject (d : da_ctx) (i : Nat) (elem : Option (List mem_byte))
    (h : d.size < i ∨ elem = none) : da_insert (some d) i elem = some d := by
  cases elem with
  | none => rfl
  | some v =>
    have hi : d.size < i := h.elim id (fun h' => Option.noConfusion h')
    unfold da_insert
    simp only
    rw [if_pos hi]

theorem da_erase_reject (d : da_ctx) (i : Nat) (out : Option (List mem_byte))
    (h : d.size ≤ i) : da_erase (some d) i out = (some d, out) := by
  unfold da_erase
  simp only
  rw [if_pos (Or.inr h)]

theorem da_pop_reject (d : da_ctx) (out : Option (List mem_byte)) (h : d.size = 0) :
    da_pop (some d) out = (some d, out) := by
  have he : da_is_empty (some d) = true := by simp [da_is_empty, h]
  unfold da_pop
  simp only
  rw [if_pos he]

/-- C13: misuse is a no-op. On an array `d`, `da_set` with `i >= size` or an
absent value, `da_insert` with `i > size` or an absent value, `da_push` with an
absent value, `da_erase` with `i >= size` and `da_pop` on an empty array each
leave the array (size, capacity, element size and storage) as it was and do
not touch the out block; on an absent container every mutator does nothing,
and `da_size`, `da_capacity`, `da_is_empty` give 0, 0, true. -/
theorem misuse_is_noop (d : da_ctx) (i : Nat) (elem out : Option (List mem_byte)) :
    (d.size ≤ i ∨ elem = none → da_set (some d) i elem = some d) ∧
    (d.size < i ∨ elem = none → da_insert (some d) i elem = some d) ∧
    da_push (some d) none = some d ∧
    (d.size ≤ i → da_erase (some d) i out = (some d, out)) ∧
    (d.size = 0 → da_pop (some d) out = (some d, out)) ∧
    (da_set none i elem = none ∧ da_insert none i elem = none ∧ da_push none elem = none ∧
      da_erase none i out = (none, out) ∧ da_pop none out = (none, out)) ∧
    (da_size none = 0 ∧ da_capacity none = 0 ∧ da_is_empty none = true) :=
  ⟨da_set_reject d i elem, da_insert_reject d i elem, rfl, da_erase_reject d i out,
   da_pop_reject d out, ⟨rfl, rfl, rfl, rfl, rfl⟩, ⟨rfl, rfl, rfl⟩⟩

/-- C13 at an array of two 2-byte elements and the index 5. -/
theorem misuse_is_noop_witness :
    (2 ≤ 5) ∧
    da_set (some ⟨2, 2, 2, some [some 1, some 2, some 3, some 4]⟩) 5 (some [some 9, some 8]) =
      some ⟨2, 2, 2, some [some 1, some 2, some 3, some 4]⟩ ∧
    da_insert (some ⟨2, 2, 2, some [some 1, some 2, some 3, some 4]⟩) 5 (some [some 9, some 8]) =
      some ⟨2, 2, 2, some [some 1, some 2, some 3, some 4]⟩ ∧
    da_erase (some ⟨2, 2, 2, some [some 1, some 2, some 3, some 4]⟩) 5 (some [some 0, some 0]) =
      (some ⟨2, 2, 2, some [some 1, some 2, some 3, some 4]⟩, some [some 0, some 0]) :=
  ⟨by decide,
   (misuse_is_noop ⟨2, 2, 2, some [some 1, some 2, some 3, some 4]⟩ 5 (some [some 9, some 8])
     (some [some 0, some 0])).1 (Or.inl (by decide)),
   (misuse_is_noop ⟨2, 2, 2, some [some 1, some 2, some 3, some 4]⟩ 5 (some [some 9, some 8])
     (some [some 0, some 0])).2.1 (Or.inl (by decide)),
   (misuse_is_noop ⟨2, 2, 2, some [some 1, some 2, some 3, some 4]⟩ 5 (some [some 9, some 8])
     (some [some 0, some 0])).2.2.2.1 (by decide)⟩

/-! ## The bounds of `da_insert` -/

set_option maxRecDepth 8192 in
/-- C14, as stated, fails: on the array of the test, ten `size_t` elements
42, `da_insert` at index 10, the size, is accepted: the size becomes 11 and
all eleven elements are 42. -/
theorem da_insert_at_size_counterexample :
    da_size (da_create_n 8 10 (some (size_t_bytes 42))) = 10 ∧
    da_size (da_insert (da_create_n 8 10 (some (size_t_bytes 42))) 10
      (some (size_t_bytes 42))) = 11 ∧
    contents (da_insert (da_create_n 8 10 (some (size_t_bytes 42))) 10
      (some (size_t_bytes 42))) = List.replicate 11 (some (size_t_bytes 42)) ∧
    ¬ (da_size (da_insert (da_create_n 8 10 (some (size_t_bytes 42)))
        (da_size (da_create_n 8 10 (some (size_t_bytes 42)))) (some (size_t_bytes 42))) =
      da_size (da_create_n 8 10 (some (size_t_bytes 42)))) := by
  decide

/-- C14, amended: `da_insert` does nothing if given an index greater than the
size; at an index equal to the size of a valid array it appends: the elements
of the array are unchanged, the value is at index `size` and the size is one
more. -/
theorem da_insert_bounds (d : da_ctx) (i : Nat) (v : List mem_byte) :
    (d.size < i → da_insert (some d) i (some v) = some d) ∧
    (valid d → v.length = d.elem_size →
      da_size (da_insert (some d) d.size (some v)) = d.size + 1 ∧
      da_get (da_insert (some d) d.size (some v)) d.size = some v ∧
      ∀ j, j < d.size → da_get (da_insert (some d) d.size (some v)) j = da_get (some d) j) := by
  refine ⟨fun hi => da_insert_reject d i (some v) (Or.inl hi), ?_⟩
  intro hd hv
  obtain ⟨d', h, _, hs, _, _, hat, hlo, _⟩ := da_insert_spec d d.size v hd (le_refl _) hv
  rw [h]
  exact ⟨hs, hat, hlo⟩

/-- C14, amended, at an array of two 2-byte elements: index 3 is rejected,
index 2 appends. -/
theorem da_insert_bounds_witness :
    (2 < 3) ∧ valid ⟨2, 2, 2, some [some 1, some 2, some 3, some 4]⟩ ∧
    da_insert (some ⟨2, 2, 2, some [some 1, some 2, some 3, some 4]⟩) 3 (some [some 9, some 8]) =
      some ⟨2, 2, 2, some [some 1, some 2, some 3, some 4]⟩ ∧
    da_size (da_insert (some ⟨2, 2, 2, some [some 1, some 2, some 3, some 4]⟩) 2
      (some [some 9, some 8])) = 3 :=
  ⟨by decide, by decide,
   (da_insert_bounds ⟨2, 2, 2, some [some 1, some 2, some 3, some 4]⟩ 3 [some 9, some 8]).1
     (by decide),
   ((da_insert_bounds ⟨2, 2, 2, some [some 1, some 2, some 3, some 4]⟩ 3 [some 9, some 8]).2
     (by decide) (by decide)).1⟩

/-! ## `da_push` is `da_insert` at the size -/

/-- C15: for every array `a` and every value `v`, `da_push(a, v)` gives the
same array (size, capacity, element size and storage) as
`da_insert(a, size(a), v)`. -/
theorem da_push_insert_equiv (a : Option da_ctx) (v : List mem_byte) :
    da_push a (some v) = da_insert a (da_size a) (some v) := by
  cases a with
  | none => rfl
  | some d => exact da_push_eq_insert d (some v)

/-! ## `da_pop` -/

/-- What `da_pop` does to a non-empty valid array. -/
theorem da_pop_spec (d : da_ctx) (out : Option (List mem_byte)) (hd : valid d)
    (hs : 0 < d.size) (hout : ∀ o, out = some o → o.length = d.elem_size) :
    ∃ d', (da_pop (some d) out).1 = some d' ∧ d'.size = d.size - 1 ∧
      d'.capacity = d.capacity ∧ d'.elem_size = d.elem_size ∧
      (out.isSome = true → (da_pop (some d) out).2 = da_get (some d) (d.size - 1)) ∧
      (out = none → (da_pop (some d) out).2 = none) ∧
      (∀ j, j < d.size - 1 → da_get (some d') j = da_get (some d) j) := by
  rw [da_pop_eq d out hs]
  refine ⟨_, rfl, rfl, rfl, rfl, ?_, ?_, ?_⟩
  · intro ho
    cases out with
    | none => simp at ho
    | some o =>
      obtain ⟨e, he, hel⟩ := da_get_length d hd (d.size - 1) (by omega)
      show copy_out (some o) (da_get (some d) (d.size - 1)) d.elem_size = _
      rw [he]
      exact copy_out_full o e d.elem_size (hout o rfl) hel
  · intro ho
    rw [ho]; rfl
  · intro j hj
    exact da_get_size_irrel d (d.size - 1) j hj (by omega)

/-- C16: for a valid array `d` of size `s > 0`, `da_pop(d, out)` stores the
element formerly at index `s - 1` in `out` when `out` is given (a block of
`elem_size` bytes), gives size `s - 1`, and leaves the capacity and the
elements at the indices below `s - 1` unchanged. -/
theorem da_pop_contract (d : da_ctx) (out : Option (List mem_byte)) (hd : valid d)
    (hs : 0 < d.size) (hout : ∀ o, out = some o → o.length = d.elem_size) :
    (out.isSome = true → (da_pop (some d) out).2 = da_get (some d) (d.size - 1)) ∧
    da_size (da_pop (some d) out).1 = d.size - 1 ∧
    da_capacity (da_pop (some d) out).1 = d.capacity ∧
    (∀ j, j < d.size - 1 → da_get (da_pop (some d) out).1 j = da_get (some d) j) := by
  obtain ⟨d', h, hsz, hc, _, ho, _, hget⟩ := da_pop_spec d out hd hs hout
  rw [h]
  exact ⟨ho, hsz, hc, hget⟩

/-- C16 at an array of two 2-byte elements. -/
theorem da_pop_contract_witness :
    valid ⟨2, 2, 2, some [some 1, some 2, some 3, some 4]⟩ ∧
    (da_pop (some ⟨2, 2, 2, some [some 1, some 2, some 3, some 4]⟩) (some [none, none])).2 =
      some [some 3, some 4] ∧
    da_size (da_pop (some ⟨2, 2, 2, some [some 1, some 2, some 3, some 4]⟩)
      (some [none, none])).1 = 1 :=
  ⟨by decide,
   (da_pop_contract ⟨2, 2, 2, some [some 1, some 2, some 3, some 4]⟩ (some [none, none])
     (by decide) (by decide) (by intro o h; cases h; rfl)).1 rfl,
   (da_pop_contract ⟨2, 2, 2, some [some 1, some 2, some 3, some 4]⟩ (some [none, none])
     (by decide) (by decide) (by intro o h; cases h; rfl)).2.1⟩

/-- C17, as stated, fails: on the array of the test, ten `size_t` elements
42, `da_pop` with a `NULL` out block removes the last element: the size
becomes 9. -/
theorem da_pop_null_counterexample :
    da_size (da_create_n 8 10 (some (size_t_bytes 42))) = 10 ∧
    da_size (da_pop (da_create_n 8 10 (some (size_t_bytes 42))) none).1 = 9 ∧
    contents (da_pop (da_create_n 8 10 (some (size_t_bytes 42))) none).1 =
      List.replicate 9 (some (size_t_bytes 42)) ∧
    ¬ (da_size (da_pop (da_create_n 8 10 (some (size_t_bytes 42))) none).1 =
      da_size (da_create_n 8 10 (some (size_t_bytes 42)))) := by
  decide

/-- C17, amended: on a non-empty array `da_pop` with a `NULL` out block copies
nothing and removes the last element: the size is one less, and the capacity
and the elements below the new size are unchanged. -/
theorem da_pop_null (d : da_ctx) (hs : 0 < d.size) :
    (da_pop (some d) none).2 = none ∧
    da_size (da_pop (some d) none).1 = d.size - 1 ∧
    da_capacity (da_pop (some d) none).1 = d.capacity ∧
    (∀ j, j < d.size - 1 → da_get (da_pop (some d) none).1 j = da_get (some d) j) := by
  rw [da_pop_eq d none hs]
  exact ⟨rfl, rfl, rfl, fun j hj => da_get_size_irrel d (d.size - 1) j hj (by omega)⟩

/-- C17, amended, at an array of two 2-byte elements. -/
theorem da_pop_null_witness :
    (0 < 2) ∧
    da_size (da_pop (some ⟨2, 2, 2, some [some 1, some 2, some 3, some 4]⟩) none).1 = 1 ∧
    da_get (da_pop (some ⟨2, 2, 2, some [some 1, some 2, some 3, some 4]⟩) none).1 0 =
      some [some 1, some 2] :=
  ⟨by decide,
   (da_pop_null ⟨2, 2, 2, some [some 1, some 2, some 3, some 4]⟩ (by decide)).2.1,
   (da_pop_null ⟨2, 2, 2, some [some 1, some 2, some 3, some 4]⟩ (by decide)).2.2.2 0
     (by decide)⟩

/-! ## `da_clear` -/

/-- C18: for every array `d`, `da_clear(d)` gives size 0 (`da_is_empty` true)
and leaves the capacity, the element size and the storage as they were. -/
theorem da_clear_contract (d : da_ctx) :
    da_size (da_clear (some d)) = 0 ∧ da_is_empty (da_clear (some d)) = true ∧
    da_capacity (da_clear (some d)) = d.capacity ∧
    da_data (da_clear (some d)) = d.data ∧
    ∃ d', da_clear (some d) = some d' ∧ d'.elem_size = d.elem_size :=
  ⟨rfl, rfl, rfl, rfl, _, rfl, rfl⟩

/-! ## A run of the interface -/

/-- C19: from `da_create` with `elem_size` 8, pushing 1, 2, 3 gives size 3 and
the sequence 1, 2, 3; then `da_insert(1, 99)` gives 1, 99, 2, 3 and size 4;
then `da_erase(0, out)` gives `out = 1`, the sequence 99, 2, 3 and size 3; then
`da_pop(out2)` gives `out2 = 3`, the sequence 99, 2 and size 2. -/
theorem scenario_push_insert_erase_pop :
    da_size (push_all (da_create 8) [size_t_bytes 1, size_t_bytes 2, size_t_bytes 3]) = 3 ∧
    contents (push_all (da_create 8) [size_t_bytes 1, size_t_bytes 2, size_t_bytes 3]) =
      [some (size_t_bytes 1), some (size_t_bytes 2), some (size_t_bytes 3)] ∧
    da_size (da_insert (push_all (da_create 8)
      [size_t_bytes 1, size_t_bytes 2, size_t_bytes 3]) 1 (some (size_t_bytes 99))) = 4 ∧
    contents (da_insert (push_all (da_create 8)
      [size_t_bytes 1, size_t_bytes 2, size_t_bytes 3]) 1 (some (size_t_bytes 99))) =
      [some (size_t_bytes 1), some (size_t_bytes 99), some (size_t_bytes 2),
        some (size_t_bytes 3)] ∧
    (da_erase (da_insert (push_all (da_create 8)
      [size_t_bytes 1, size_t_bytes 2, size_t_bytes 3]) 1 (some (size_t_bytes 99))) 0
      (some (List.replicate 8 none))).2 = some (size_t_bytes 1) ∧
    da_size (da_erase (da_insert (push_all (da_create 8)
      [size_t_bytes 1, size_t_bytes 2, size_t_bytes 3]) 1 (some (size_t_bytes 99))) 0
      (some (List.replicate 8 none))).1 = 3 ∧
    contents (da_erase (da_insert (push_all (da_create 8)
      [size_t_bytes 1, size_t_bytes 2, size_t_bytes 3]) 1 (some (size_t_bytes 99))) 0
      (some (List.replicate 8 none))).1 =
      [some (size_t_bytes 99), some (size_t_bytes 2), some (size_t_bytes 3)] ∧
    (da_pop (da_erase (da_insert (push_all (da_create 8)
      [size_t_bytes 1, size_t_bytes 2, size_t_bytes 3]) 1 (some (size_t_bytes 99))) 0
      (some (List.replicate 8 none))).1 (some (List.replicate 8 none))).2 =
      some (size_t_bytes 3) ∧
    da_size (da_pop (da_erase (da_insert (push_all (da_create 8)
      [size_t_bytes 1, size_t_bytes 2, size_t_bytes 3]) 1 (some (size_t_bytes 99))) 0
      (some (List.replicate 8 none))).1 (some (List.replicate 8 none))).1 = 2 ∧
    contents (da_pop (da_erase (da_insert (push_all (da_create 8)
      [size_t_bytes 1, size_t_bytes 2, size_t_bytes 3]) 1 (some (size_t_bytes 99))) 0
      (some (List.replicate 8 none))).1 (some (List.replicate 8 none))).1 =
      [some (size_t_bytes 99), some (size_t_bytes 2)] := by
  decide

/-! ## Capacity and element size over the calls -/

/-- C20: for every array `d` and every call of a mutator (`da_set`,
`da_insert`, `da_erase`, `da_push`, `da_pop`, `da_clear`, `da_resize`,
`da_reserve`, with any arguments), the capacity after the call is at least
the capacity before it, and the element size is unchanged. -/
theorem capacity_never_shrinks (d : da_ctx) (c : da_call) :
    ∃ d', c.run (some d) = some d' ∧ d.capacity ≤ d'.capacity ∧
      d'.elem_size = d.elem_size := by
  obtain ⟨d', h, he, hc, _⟩ := da_call_fields d c
  refine ⟨d', h, ?_, he⟩
  rcases hc with hc | hc | ⟨n, hn, hc⟩
  · omega
  · rw [hc, grown_capacity]
    split_ifs <;> omega
  · omega

/-! ## `da_insert` then `da_erase` -/

/-- What an accepted `da_erase` does to a valid array. -/
theorem da_erase_spec (d : da_ctx) (i : Nat) (out : Option (List mem_byte)) (hd : valid d)
    (hi : i < d.size) (hout : ∀ o, out = some o → o.length = d.elem_size) :
    ∃ d', (da_erase (some d) i out).1 = some d' ∧ d'.size = d.size - 1 ∧
      d'.capacity = d.capacity ∧ d'.elem_size = d.elem_size ∧
      (out.isSome = true → (da_erase (some d) i out).2 = da_get (some d) i) ∧
      (out = none → (da_erase (some d) i out).2 = none) ∧
      (∀ j, j < i → da_get (some d') j = da_get (some d) j) ∧
      (∀ j, i < j → j < d.size → da_get (some d') (j - 1) = da_get (some d) j) := by
  obtain ⟨buf, hbuf, hlen⟩ := valid_storage d hd (by omega)
  have hroom : d.size * d.elem_size ≤ buf.length := by
    rw [hlen]; exact Nat.mul_le_mul_right _ hd.2.1
  have hslot := slot_succ_le d.elem_size hi
  rw [da_erase_eq d i out hi buf hbuf]
  refine ⟨_, rfl, rfl, rfl, rfl, ?_, ?_, ?_, ?_⟩
  · intro ho
    cases out with
    | none => simp at ho
    | some o =>
      rw [da_get_of_lt d buf i hbuf hi]
      exact copy_out_full o _ d.elem_size (hout o rfl) (length_mem_read _ _ _ (by omega))
  · intro ho
    rw [ho]; rfl
  · intro j hj
    rw [da_get_of_lt _ _ j rfl (by show j < d.size - 1; omega), da_get_of_lt d buf j hbuf (by omega)]
    exact congrArg some (erase_bytes_below buf d.elem_size d.size i j hi hj hroom)
  · intro j hij hj
    rw [da_get_of_lt _ _ (j - 1) rfl (by show j - 1 < d.size - 1; omega),
      da_get_of_lt d buf j hbuf hj]
    exact congrArg some (erase_bytes_above buf d.elem_size d.size i j hij hj hroom)

/-- Two arrays of one size whose `da_get` agree below it have the same
element sequence. -/
theorem contents_congr (a b : Option da_ctx) (hs : da_size a = da_size b)
    (hget : ∀ j, j < da_size b → da_get a j = da_get b j) : contents a = contents b := by
  unfold contents
  rw [hs]
  apply List.map_congr_left
  intro j hj
  exact hget j (List.mem_range.mp hj)

/-- C23: insert and erase at one index are inverse on the contents. For a
valid array `d` of size `s`, an index `i <= s`, a value `v` of `elem_size`
bytes and an out block of `elem_size` bytes, `da_insert(d, i, v)` followed by
`da_erase(., i, out)` gives `out == v`, size `s` and the original element
sequence of `d`; the capacity is the one after the insertion, at least the
original one. -/
theorem da_insert_erase_inverse (d : da_ctx) (i : Nat) (v o : List mem_byte) (hd : valid d)
    (hi : i ≤ d.size) (hv : v.length = d.elem_size) (ho : o.length = d.elem_size) :
    (da_erase (da_insert (some d) i (some v)) i (some o)).2 = some v ∧
    da_size (da_erase (da_insert (some d) i (some v)) i (some o)).1 = d.size ∧
    (∀ j, j < d.size →
      da_get (da_erase (da_insert (some d) i (some v)) i (some o)).1 j = da_get (some d) j) ∧
    contents (da_erase (da_insert (some d) i (some v)) i (some o)).1 = contents (some d) ∧
    d.capacity ≤ da_capacity (da_erase (da_insert (some d) i (some v)) i (some o)).1 ∧
    da_capacity (da_erase (da_insert (some d) i (some v)) i (some o)).1 =
      da_capacity (da_insert (some d) i (some v)) := by
  obtain ⟨d1, h1, hv1, hs1, he1, hc1, hat1, hlo1, hhi1⟩ := da_insert_spec d i v hd hi hv
  obtain ⟨d2, h2, hs2, hc2, _, hout2, _, hlo2, hhi2⟩ :=
    da_erase_spec d1 i (some o) hv1 (by omega)
      (fun o' h => by cases h; rw [he1]; exact ho)
  have hget : ∀ j, j < d.size → da_get (some d2) j = da_get (some d) j := by
    intro j hj
    by_cases hji : j < i
    · rw [hlo2 j hji]
      exact hlo1 j hji
    · have := hhi2 (j + 1) (by omega) (by omega)
      rw [Nat.add_sub_cancel] at this
      rw [this]
      exact hhi1 j (by omega) hj
  have hsz : d2.size = d.size := by omega
  rw [h1, h2]
  refine ⟨?_, hsz, hget, contents_congr _ _ hsz hget, ?_, hc2⟩
  · rw [hout2 rfl]
    exact hat1
  · show d.capacity ≤ d2.capacity
    rw [hc2, hc1, grown_capacity]
    split_ifs <;> omega

/-- C23 at a full array of two 2-byte elements, inserting and erasing at index 1. -/
theorem da_insert_erase_inverse_witness :
    valid ⟨2, 2, 2, some [some 1, some 2, some 3, some 4]⟩ ∧
    (da_erase (da_insert (some ⟨2, 2, 2, some [some 1, some 2, some 3, some 4]⟩) 1
      (some [some 9, some 8])) 1 (some [none, none])).2 = some [some 9, some 8] ∧
    contents (da_erase (da_insert (some ⟨2, 2, 2, some [some 1, some 2, some 3, some 4]⟩) 1
      (some [some 9, some 8])) 1 (some [none, none])).1 =
      contents (some ⟨2, 2, 2, some [some 1, some 2, some 3, some 4]⟩) :=
  ⟨by decide,
   (da_insert_erase_inverse ⟨2, 2, 2, some [some 1, some 2, some 3, some 4]⟩ 1
     [some 9, some 8] [none, none] (by decide) (by decide) (by decide) (by decide)).1,
   (da_insert_erase_inverse ⟨2, 2, 2, some [some 1, some 2, some 3, some 4]⟩ 1
     [some 9, some 8] [none, none] (by decide) (by decide) (by decide) (by decide)).2.2.2.1⟩

/-! ## The calls of `da_realloc` -/

theorem da_push_traced_fst (da : Option da_ctx) (elem : Option (List mem_byte))
    (log : List realloc_call) : (da_push_traced da elem log).1 = da_push da elem := by
  cases da with
  | none => rfl
  | some d =>
    cases elem with
    | none => rfl
    | some v =>
      unfold da_push_traced da_push
      simp only
      split_ifs <;> rfl

/-- The log after an accepted `da_push`: one more call exactly when the array
was full, carrying all of its `size` elements. -/
theorem da_push_traced_log (d : da_ctx) (v : List mem_byte) (log : List realloc_call) :
    (da_push_traced (some d) (some v) log).2 =
      if d.size = d.capacity then
        log ++ [{ new_capacity := if d.capacity ≠ 0 then d.capacity * 2 else 1,
                  carried := d.size }]
      else log := by
  unfold da_push_traced
  simp only
  by_cases hs : d.size = d.capacity
  · simp only [if_pos hs]
    rfl
  · simp only [if_neg hs]

theorem carried_total_append (log : List realloc_call) (e : realloc_call) :
    carried_total (log ++ [e]) = carried_total log + e.carried := by
  simp [carried_total]

theorem push_all_traced_cons (da : Option da_ctx) (v : List mem_byte)
    (vs : List (List mem_byte)) (log : List realloc_call) :
    push_all_traced da (v :: vs) log =
      push_all_traced (da_push_traced da (some v) log).1 vs (da_push_traced da (some v) log).2 :=
  rfl

theorem push_all_traced_fst (vs : List (List mem_byte)) :
    ∀ (da : Option da_ctx) (log : List realloc_call),
      (push_all_traced da vs log).1 = push_all da vs := by
  induction vs with
  | nil => intro da log; rfl
  | cons v vs ih =>
    intro da log
    rw [push_all_traced_cons, ih, da_push_traced_fst]
    rfl

/-- One push keeps the state of the doubling policy. -/
theorem doubling_inv_step (n cap total : Nat) (h : doubling_inv n cap total) :
    doubling_inv (n + 1) (if n = cap then (if cap ≠ 0 then cap * 2 else 1) else cap)
      (if n = cap then total + n else total) := by
  rcases h with ⟨hn, hc, ht⟩ | ⟨hn, k, hc, hle, hlt, ht⟩
  · refine Or.inr ⟨by omega, 0, ?_, ?_, ?_, ?_⟩
    · rw [if_pos (by omega), if_neg (by omega)]; rfl
    · rw [pow_zero]; omega
    · rw [pow_zero]; omega
    · rw [if_pos (by omega), pow_zero]; omega
  · have hp : 2 ^ (k + 1) = 2 ^ k * 2 := pow_succ 2 k
    by_cases hfull : n = cap
    · refine Or.inr ⟨by omega, k + 1, ?_, ?_, ?_, ?_⟩
      · rw [if_pos hfull, if_pos (by omega), hc, hp]
      · omega
      · omega
      · rw [if_pos hfull]; omega
    · refine Or.inr ⟨by omega, k, ?_, ?_, ?_, ?_⟩
      · rw [if_neg hfull]; exact hc
      · omega
      · omega
      · rw [if_neg hfull]; exact ht

theorem push_all_traced_inv (vs : List (List mem_byte)) :
    ∀ (d : da_ctx) (log : List realloc_call),
      doubling_inv d.size d.capacity (carried_total log) →
      ∃ d', (push_all_traced (some d) vs log).1 = some d' ∧ d'.size = d.size + vs.length ∧
        doubling_inv d'.size d'.capacity (carried_total (push_all_traced (some d) vs log).2) := by
  induction vs with
  | nil =>
    intro d log h
    exact ⟨d, rfl, rfl, h⟩
  | cons v vs ih =>
    intro d log h
    obtain ⟨d1, h1, hs1, hc1, _⟩ := da_insert_fields d d.size v (le_refl _)
    have hpush : (da_push_traced (some d) (some v) log).1 = some d1 := by
      rw [da_push_traced_fst, da_push_eq_insert, h1]
    have hstep := doubling_inv_step d.size d.capacity (carried_total log) h
    have hinv1 : doubling_inv d1.size d1.capacity
        (carried_total (da_push_traced (some d) (some v) log).2) := by
      rw [hs1, hc1, grown_capacity, da_push_traced_log]
      by_cases hfull : d.size = d.capacity
      · rw [if_pos hfull] at hstep ⊢
        rw [if_pos hfull, carried_total_append]
        rw [if_pos hfull] at hstep
        exact hstep
      · rw [if_neg hfull] at hstep ⊢
        rw [if_neg hfull]
        rw [if_neg hfull] at hstep
        exact hstep
    obtain ⟨d', h', hs', hinv'⟩ := ih d1 (da_push_traced (some d) (some v) log).2 hinv1
    rw [push_all_traced_cons, hpush]
    exact ⟨d', h', by rw [hs', hs1, List.length_cons]; omega, hinv'⟩

/-- C22: for every `N >= 1`, after `N` accepted `da_push` calls on an array
fresh from `da_create` the capacity is the least power of two that is `>= N`,
so `N <= capacity < 2 * N`, and the number of live elements carried across the
growth reallocations of those pushes is `capacity - 1`, less than `2 * N`. -/
theorem push_doubling_amortized (es : Nat) (vs : List (List mem_byte)) (hes : 0 < es)
    (hN : 1 ≤ vs.length) :
    (push_all_traced (da_create es) vs []).1 = push_all (da_create es) vs ∧
    da_size (push_all (da_create es) vs) = vs.length ∧
    (∃ k, da_capacity (push_all (da_create es) vs) = 2 ^ k ∧ vs.length ≤ 2 ^ k ∧
      ∀ m, vs.length ≤ 2 ^ m → k ≤ m) ∧
    vs.length ≤ da_capacity (push_all (da_create es) vs) ∧
    da_capacity (push_all (da_create es) vs) < 2 * vs.length ∧
    carried_total (push_all_traced (da_create es) vs []).2 =
      da_capacity (push_all (da_create es) vs) - 1 ∧
    carried_total (push_all_traced (da_create es) vs []).2 < 2 * vs.length := by
  have hfst := push_all_traced_fst vs (da_create es) []
  rw [da_create_pos es hes] at hfst ⊢
  obtain ⟨d', h', hs', hinv⟩ :=
    push_all_traced_inv vs ⟨0, 0, es, none⟩ [] (Or.inl ⟨rfl, rfl, rfl⟩)
  rw [hfst] at h'
  rw [h']
  have hsz : d'.size = vs.length := by rw [hs']; exact Nat.zero_add _
  rcases hinv with ⟨hn, _, _⟩ | ⟨_, k, hc, hle, hlt, ht⟩
  · omega
  · rw [hsz] at hle hlt
    refine ⟨hfst.trans h', hsz, ⟨k, hc, hle, ?_⟩, ?_, ?_, ?_, ?_⟩
    · intro m hm
      by_contra hkm
      have hpow : 2 ^ (m + 1) ≤ 2 ^ k := Nat.pow_le_pow_right (by omega) (by omega)
      have hp : 2 ^ (m + 1) = 2 ^ m * 2 := pow_succ 2 m
      omega
    · show vs.length ≤ d'.capacity
      omega
    · show d'.capacity < 2 * vs.length
      omega
    · show _ = d'.capacity - 1
      omega
    · omega

/-- C22 for five pushes of 1-byte values: capacity 8, seven elements carried. -/
theorem push_doubling_amortized_witness :
    (0 < 1) ∧ (1 ≤ 5) ∧
    da_capacity (push_all (da_create 1) [[some 1], [some 2], [some 3], [some 4], [some 5]])
      < 2 * 5 ∧
    carried_total
      (push_all_traced (da_create 1) [[some 1], [some 2], [some 3], [some 4], [some 5]] []).2 =
      da_capacity (push_all (da_create 1) [[some 1], [some 2], [some 3], [some 4], [some 5]])
        - 1 :=
  ⟨by decide, by decide,
   (push_doubling_amortized 1 [[some 1], [some 2], [some 3], [some 4], [some 5]] (by decide)
     (by decide)).2.2.2.2.1,
   (push_doubling_amortized 1 [[some 1], [some 2], [some 3], [some 4], [some 5]] (by decide)
     (by decide)).2.2.2.2.2.1⟩

end Pyramid
